import Mathlib

/-!
# Verification of the Wordle assistant core

A shallow embedding of `src/main.rs` (the constraint-propagation state machine,
feedback generator, quality evaluator and branch-and-bound best-guess search),
together with proofs about the specified properties.

Modelling conventions:
* a letter `a`..`z` is its index `0`..`25` (the source stores bytes and
  subtracts `b'a'` wherever it uses a letter as an index);
* the `u32` bitmasks of `letter_choices` are `Nat` (all values stay below
  `2 ^ 26`, so no wrap-around occurs; the `u32` complement `!x` is modelled by
  `xor` with `2 ^ 32 - 1`);
* the `u8` endpoints of `letter_counts` ranges are `Nat` (all values stay
  below `7`, so no wrap-around occurs);
* `f64` is modelled as `ℚ`: the only numeric operations the source performs
  are additions, subtractions, one multiplication, divisions and order
  comparisons on small values, and the source itself relies on these being
  exact (its `debug_assert_eq!` compares quality values for equality);
* `assert!` never changes the state when it passes (it aborts the process
  when it fails), so state-returning functions model it as a no-op; theorems
  that rely on an assert passing prove the asserted fact on the way;
* reading a line-oriented word source is modelled by passing the list of
  lines (each a list of bytes); an unreadable source is `none`.
-/

set_option maxHeartbeats 1000000

namespace WordleAssistant

/-- A letter `a`..`z`, stored as its alphabet index `0`..`25`. -/
abbrev Letter := Fin 26

/-- `struct Word([u8; 5])`: a five-letter lowercase word, one letter per position. -/
abbrev Word := Fin 5 → Letter

/-- `enum GuessLetterResult { Green, Yellow, Black }` -/
inductive GuessLetterResult where
  | Green
  | Yellow
  | Black
deriving DecidableEq

/-- `type GuessWordResult = [GuessLetterResult; 5]` -/
abbrev GuessWordResult := Fin 5 → GuessLetterResult

/-- `struct LetterCount(std::ops::Range<u8>)`: a half-open range `[start, stop)`
bounding how many times a letter occurs in the solution.  (`stop` is the
source's `end`, which is a Lean keyword.) -/
structure LetterCount where
  start : Nat
  stop : Nat
deriving DecidableEq

/-- `impl Default for LetterCount`: no information, the range `[0, 6)`. -/
def LetterCount.default : LetterCount := ⟨0, 6⟩

/-- `struct GuessState`: per-position candidate-letter bitmasks and per-letter
occurrence-count ranges. -/
structure GuessState where
  letter_choices : Fin 5 → Nat
  letter_counts : Fin 26 → LetterCount

/-- `impl Default for GuessState`: every letter possible at every position
(`(1 << 26) - 1`), every count range `[0, 6)`. -/
def GuessState.default : GuessState :=
  { letter_choices := fun _ => (1 <<< 26) - 1, letter_counts := fun _ => LetterCount.default }

/-- The `u32` bitwise complement `!x`, for values below `2 ^ 32`. -/
def not32 (x : Nat) : Nat := x ^^^ (2 ^ 32 - 1)

/-! ## Feedback generator (`process_guess`) -/

/-- The lexicographic order on `(u8, usize)` pairs used by
`remaining_guess.sort_unstable()`. -/
def pairLe (p q : Nat × Nat) : Prop :=
  p.1 < q.1 ∨ (p.1 = q.1 ∧ p.2 ≤ q.2)

instance : DecidableRel pairLe := fun p q => by unfold pairLe; infer_instance

/-- The two-pointer sweep of `process_guess` step 2, assigning one remaining
actual occurrence per matched remaining guessed occurrence.  The source loops
with indices `i` (into the sorted remaining guessed `(letter, position)` pairs)
and `j` (into the sorted remaining actual letters): `Less` advances `i`,
`Greater` advances `j`, `Equal` records a match and advances both.  Here the
consumed prefix of the actual list is dropped instead of advancing `j`
(`dropWhile` performs all consecutive `Greater` steps at once), which makes the
recursion structural in the first argument; the visible behaviour is identical.
Returns the matched pairs. -/
def yellow_matches : List (Nat × Nat) → List Nat → List (Nat × Nat)
  | [], _ => []
  | (c, i) :: gs, as =>
    match as.dropWhile (fun a => decide (a < c)) with
    | [] => []
    | a :: rest =>
      if c < a then yellow_matches gs (a :: rest)
      else (c, i) :: yellow_matches gs rest

/-- The non-exact positions of a guess (the positions pushed onto
`remaining_guess`/`remaining_actual` in step 1 of `process_guess`). -/
def nonGreenPositions (guessed actual : Word) : List (Fin 5) :=
  (List.finRange 5).filter (fun i => decide (¬ guessed i = actual i))

/-- `remaining_guess` after `sort_unstable()`: the `(letter, position)` pairs
at non-exact positions, in lexicographic order (the order is unique, because
the positions are distinct). -/
def remaining_guess (guessed actual : Word) : List (Nat × Nat) :=
  List.insertionSort pairLe
    ((nonGreenPositions guessed actual).map (fun i => (((guessed i : Nat)), (i : Nat))))

/-- `remaining_actual` after `sort_unstable()`: the actual word's letters at
non-exact positions, in increasing order. -/
def remaining_actual (guessed actual : Word) : List Nat :=
  List.insertionSort (· ≤ ·) ((nonGreenPositions guessed actual).map (fun i => ((actual i : Nat))))

/-- `fn process_guess(guessed: Word, actual: Word) -> GuessWordResult`:
Green where the letters agree; among the remaining positions, Yellow where the
sort-and-sweep matching pairs the guessed letter with an unmatched actual
occurrence; Black elsewhere. -/
def process_guess (guessed actual : Word) : GuessWordResult :=
  let yellows : List Nat :=
    (yellow_matches (remaining_guess guessed actual) (remaining_actual guessed actual)).map
      Prod.snd
  fun i =>
    if guessed i = actual i then GuessLetterResult.Green
    else if (i : Nat) ∈ yellows then GuessLetterResult.Yellow
    else GuessLetterResult.Black

/-! ## Constraint-state update (`GuessState::update`) -/

/-- The number of positions where `letter` occurs in the guess with a Green or
Yellow result (`yellow_or_green_count` in the source). -/
def yg_count (guessed : Word) (gwr : GuessWordResult) (letter : Letter) : Nat :=
  ((List.finRange 5).filter
    (fun j => decide (guessed j = letter) && decide (gwr j ≠ GuessLetterResult.Black))).length

/-- One iteration of the first loop of `GuessState::update`, for position `i`:
narrow `letter_choices[i]` (Green locks the set to the guessed letter, Yellow
and Black remove it) and overwrite the count bound of the guessed letter
(Black sets the upper bound to `yellow_or_green_count + 1`, Green and Yellow
set the lower bound to `yellow_or_green_count`). -/
def update_step1 (guessed : Word) (gwr : GuessWordResult) (s : GuessState) (i : Fin 5) :
    GuessState :=
  let letter := guessed i
  let bit : Nat := 1 <<< (letter : Nat)
  let choices' := Function.update s.letter_choices i
    (match gwr i with
     | GuessLetterResult.Green => bit
     | _ => s.letter_choices i &&& not32 bit)
  let k := yg_count guessed gwr letter
  let lc := s.letter_counts letter
  let lc' : LetterCount :=
    match gwr i with
    | GuessLetterResult.Black => ⟨lc.start, 1 + k⟩
    | _ => ⟨k, lc.stop⟩
  { letter_choices := choices', letter_counts := Function.update s.letter_counts letter lc' }

/-- One iteration of the second loop of `GuessState::update` (the
cross-propagation pass) for one letter: intersect the stored count range with
the range implied by the position candidate sets, then either remove the
letter everywhere (count settled at `0`) or lock every position still
admitting the letter to it alone (count settled at exactly the number of such
positions).  The source's `assert!` (the tightened range must be non-empty)
aborts the process on failure and changes nothing on success, so it does not
appear in the state transformation. -/
def cross_step (s : GuessState) (letter : Letter) : GuessState :=
  let bit : Nat := 1 <<< (letter : Nat)
  let exactly := ((List.finRange 5).filter (fun i => decide (s.letter_choices i = bit))).length
  let containing := ((List.finRange 5).filter (fun i => decide (s.letter_choices i &&& bit ≠ 0))).length
  let lc := s.letter_counts letter
  let lc' : LetterCount := ⟨Nat.max lc.start exactly, Nat.min lc.stop (containing + 1)⟩
  let s' : GuessState := { s with letter_counts := Function.update s.letter_counts letter lc' }
  if lc' = ⟨0, 1⟩ then
    { s' with letter_choices := fun i => s'.letter_choices i &&& not32 bit }
  else if lc'.stop - lc'.start = 1 ∧ containing = lc'.start then
    { s' with letter_choices := fun i =>
        if s'.letter_choices i &&& bit ≠ 0 then bit else s'.letter_choices i }
  else s'

/-- The bitmask of letters occurring in the guess (`letters_seen`). -/
def letters_seen (guessed : Word) : Nat :=
  (List.finRange 5).foldl (fun acc i => acc ||| (1 <<< ((guessed i : Nat)))) 0

/-- `GuessState::update`: the per-position loop over the five positions,
followed by the cross-propagation loop over the letters seen in the guess
(`BitIter` visits the set bits in increasing order). -/
def GuessState.update (s : GuessState) (guessed : Word) (gwr : GuessWordResult) : GuessState :=
  let s1 := (List.finRange 5).foldl (update_step1 guessed gwr) s
  ((List.finRange 26).filter (fun l => (letters_seen guessed).testBit l.val)).foldl
    cross_step s1

/-- `GuessState::then`: clone and update (`then` is a Lean keyword). -/
def GuessState.then' (s : GuessState) (guessed : Word) (gwr : GuessWordResult) : GuessState :=
  s.update guessed gwr

/-- The number of occurrences of `letter` in `w`
(`w.0.iter().filter(|&c| (c - b'a') == i as u8).count()`). -/
def countLetter (w : Word) (letter : Letter) : Nat :=
  ((List.finRange 5).filter (fun i => decide (w i = letter))).length

/-- `GuessState::is_word_possible`: every position's letter is in that
position's candidate set, and every letter with a non-default count range has
its occurrence count inside the range. -/
def GuessState.is_word_possible (s : GuessState) (w : Word) : Bool :=
  ((List.finRange 5).all (fun i => decide (s.letter_choices i &&& (1 <<< ((w i : Nat))) ≠ 0))) &&
  ((List.finRange 26).all (fun l =>
    decide (s.letter_counts l = LetterCount.default) ||
      (decide ((s.letter_counts l).start ≤ countLetter w l) &&
       decide (countLetter w l < (s.letter_counts l).stop))))

/-- `GuessState::filter_word_list`: keep the possible words.  (The source uses
the in-place `partition::partition`, whose Lomuto sweep moves each word
satisfying the predicate, in encounter order, to the front; the front slice it
returns is the in-order filter.) -/
def GuessState.filter_word_list (s : GuessState) (words : List Word) : List Word :=
  words.filter (fun w => s.is_word_possible w)

/-! ## Word parsing and loading -/

/-- `u8::make_ascii_lowercase`. -/
def make_ascii_lowercase (c : Nat) : Nat := if 65 ≤ c ∧ c ≤ 90 then c + 32 else c

/-- `impl TryFrom<&str> for Word`, on the line's bytes: ASCII check, length
check, case folding, letter-range check. -/
def Word.try_from (value : List Nat) : Except String Word :=
  if ¬ value.all (fun c => decide (c ≤ 127)) then Except.error "not an ASCII word"
  else if hlen : value.length = 5 then
    let word := value.map make_ascii_lowercase
    if hall : word.all (fun c => decide (97 ≤ c) && decide (c ≤ 122)) then
      Except.ok (fun i =>
        have hw : (i : Nat) < word.length := by
          have h5 : word.length = 5 := by simpa [word] using hlen
          omega
        ⟨word.get ⟨(i : Nat), hw⟩ - 97, by
          have hmem := List.get_mem word (i : Nat) hw
          have h2 := List.all_eq_true.mp hall _ hmem
          simp only [Bool.and_eq_true, decide_eq_true_eq] at h2
          omega⟩)
    else Except.error "not all ASCII letters"
  else Except.error "not a five-letter word"

/-- The line-processing loop of `fn load_words`: skip blank lines and lines
starting with `#` (byte `35`), parse the rest, fail on the first invalid
word. -/
def load_lines : List (List Nat) → Except String (List Word)
  | [] => Except.ok []
  | line :: rest =>
    if line.isEmpty then load_lines rest
    else if line.head? = some 35 then load_lines rest
    else
      match Word.try_from line with
      | Except.error e => Except.error ("File contains word which is invalid: " ++ e)
      | Except.ok w => (load_lines rest).map (fun ws => w :: ws)

/-- `fn load_words`: `none` models a source that cannot be opened
(`File::open` fails and the error is surfaced); otherwise the lines are
processed in order. -/
def load_words (source : Option (List (List Nat))) : Except String (List Word) :=
  match source with
  | none => Except.error "Os { code: 2, kind: NotFound }"
  | some lines => load_lines lines

/-! ## Quality evaluation and the best-guess search -/

/-- `fn quality`: with `total` the size of the list and `remaining` the number
of its words still possible, `(total - remaining) / (total - 1)`. -/
def quality (guess_state : GuessState) (words : List Word) : ℚ :=
  let total : ℚ := (words.length : ℚ)
  let remaining : ℚ := (((words.filter (fun w => guess_state.is_word_possible w)).length : Nat) : ℚ)
  (total - remaining) / (total - 1)

/-- `fn guess_quality`: the mean over every hypothetical actual word of the
post-update quality.  (The source's `assert!(new_state.is_word_possible(actual_word))`
is proved below as `update_preserves_possible`.) -/
def guess_quality (s : GuessState) (guessed_word : Word) (words : List Word) : ℚ :=
  (words.map (fun actual_word =>
    quality (s.then' guessed_word (process_guess guessed_word actual_word)) words)).sum
    / (words.length : ℚ)

/-- The body of the `try_fold` in `fn guess_quality_lower_bound`: add this
hypothesis's quality to the running sum and abandon (return `none`) when even
all-maximal remaining hypotheses could not reach `minimum_quality`. -/
def gqlb_step (s : GuessState) (guessed_word : Word) (words : List Word) (minimum_quality : ℚ)
    (cur_quality : ℚ) (p : Nat × Word) : Option ℚ :=
  let new_state := s.then' guessed_word (process_guess guessed_word p.2)
  let this_quality := quality new_state words
  let new_quality := cur_quality + this_quality
  if new_quality + (((words.length - p.1 - 1 : Nat)) : ℚ) < minimum_quality then none
  else some new_quality

/-- `fn guess_quality_lower_bound`: the early-abandoning evaluation of
`guess_quality`, abandoning as soon as the candidate provably cannot reach
`lower_bound`. -/
def guess_quality_lower_bound (s : GuessState) (guessed_word : Word) (words : List Word)
    (lower_bound : ℚ) : Option ℚ :=
  let total : ℚ := (words.length : ℚ)
  let minimum_quality := lower_bound * total
  (words.enum.foldlM (gqlb_step s guessed_word words minimum_quality) 0).map
    (fun raw_quality => raw_quality / total)

/-- One step of the search loop of `fn find_best_guess`: the `filter_map` with
a mutable `best_quality` yields `guessed_word` (and overwrites `best_quality`)
exactly when the bounded evaluation completes; `.last()` keeps the final
yielded word, here threaded as the second accumulator component. -/
def search_step (s : GuessState) (words : List Word) (acc : ℚ × Option Word)
    (guessed_word : Word) : ℚ × Option Word :=
  match guess_quality_lower_bound s guessed_word words acc.1 with
  | some better_quality => (better_quality, some guessed_word)
  | none => acc

/-- `fn find_best_guess`: filter the list, fail when nothing remains, return a
single remaining word directly, otherwise run the bounded search.  The final
`.unwrap()` (the `filter_map` is never empty, proved below) is modelled by the
second `error` branch. -/
def find_best_guess (s : GuessState) (words : List Word) : Except String Word :=
  let remaining := s.filter_word_list words
  if remaining.isEmpty then Except.error "No more words remaining in word list"
  else if remaining.length = 1 then Except.ok remaining.headI
  else
    match (remaining.foldl (search_step s remaining) (0, none)).2 with
    | some best => Except.ok best
    | none => Except.error "called Option::unwrap() on a None value"

/-- Modelled from the spec (§4.5), for comparison with `find_best_guess`: the
unpruned exhaustive search, which fully evaluates `guess_quality` for every
candidate and tracks `best_so_far` as a strictly increasing value, updated
only when a candidate's quality strictly exceeds it. -/
def exhaustive_step (s : GuessState) (words : List Word) (acc : ℚ × Option Word)
    (guessed_word : Word) : ℚ × Option Word :=
  let q := guess_quality s guessed_word words
  if acc.1 < q then (q, some guessed_word) else acc

/-- Modelled from the spec (§4.5): `find_best_guess` with the unpruned
strictly-increasing exhaustive search in place of the bounded search. -/
def find_best_guess_exhaustive (s : GuessState) (words : List Word) : Except String Word :=
  let remaining := s.filter_word_list words
  if remaining.isEmpty then Except.error "No more words remaining in word list"
  else if remaining.length = 1 then Except.ok remaining.headI
  else
    match (remaining.foldl (exhaustive_step s remaining) (0, none)).2 with
    | some best => Except.ok best
    | none => Except.error "called Option::unwrap() on a None value"

/-- The unpruned exhaustive search with a non-strict update (a fully evaluated
candidate whose quality at least equals the running best replaces it): the
tie-break the pruned code actually implements. -/
def ge_step (s : GuessState) (words : List Word) (acc : ℚ × Option Word)
    (guessed_word : Word) : ℚ × Option Word :=
  let q := guess_quality s guessed_word words
  if acc.1 ≤ q then (q, some guessed_word) else acc

/-- `find_best_guess` with the non-strict unpruned exhaustive search. -/
def find_best_guess_ge (s : GuessState) (words : List Word) : Except String Word :=
  let remaining := s.filter_word_list words
  if remaining.isEmpty then Except.error "No more words remaining in word list"
  else if remaining.length = 1 then Except.ok remaining.headI
  else
    match (remaining.foldl (ge_step s remaining) (0, none)).2 with
    | some best => Except.ok best
    | none => Except.error "called Option::unwrap() on a None value"

/-! ## Presort heuristic -/

/-- The 5×26 positional letter histogram of `fn presort_words_by_heuristic`:
how many words of the list have letter `c` at position `i`. -/
def presort_histogram (words : List Word) (i : Fin 5) (c : Letter) : Nat :=
  (words.filter (fun w => decide (w i = c))).length

/-- A word's heuristic score: the sum of its letters' histogram counts at
their positions.  (The source sorts by the negated score as an `isize`;
sorting by descending `Nat` score is the same order.) -/
def presort_score (words : List Word) (w : Word) : Nat :=
  ((List.finRange 5).map (fun i => presort_histogram words i (w i))).sum

/-- `fn presort_words_by_heuristic`: sort by descending heuristic score
(`sort_unstable_by_key` with the negated score; the order among equal-score
words is unspecified in the source, and this model fixes one). -/
def presort_words_by_heuristic (words : List Word) : List Word :=
  List.insertionSort (fun w v => presort_score words v ≤ presort_score words w) words

/-- The lists on which `fn quality` is evaluated during a call of
`find_best_guess`.  Inside `find_best_guess`, `quality` is reached only
through `guess_quality_lower_bound` (via `gqlb_step`), which evaluates it
solely on its own `words` argument, and the search loop always passes the
filtered list `remaining`; the empty and single-word branches evaluate no
quality at all. -/
def quality_eval_lists (s : GuessState) (words : List Word) : List (List Word) :=
  let remaining := s.filter_word_list words
  if remaining.isEmpty then []
  else if remaining.length = 1 then []
  else [remaining]

/-! ## Bitmask lemmas -/

/-- Membership in a `u32` letter-set bitmask is `testBit`. -/
theorem mem_bit_iff (x l : Nat) : (x &&& (1 <<< l) ≠ 0) ↔ x.testBit l := by
  rw [Nat.one_shiftLeft, Nat.and_two_pow]
  cases h : x.testBit l with
  | false => simp
  | true => simpa using (Nat.two_pow_pos l).ne'

/-- `testBit` of the `u32` complement of a single-bit mask. -/
theorem testBit_not32_bit (l n : Nat) (hn : n < 32) :
    (not32 (1 <<< l)).testBit n = !(decide (l = n)) := by
  rw [not32, Nat.one_shiftLeft, Nat.testBit_xor, Nat.testBit_two_pow,
    Nat.testBit_two_pow_sub_one]
  simp [hn]

/-- Clearing one letter from a bitmask, at the `testBit` level. -/
theorem testBit_and_not32 (x l n : Nat) (hn : n < 32) :
    (x &&& not32 (1 <<< l)).testBit n = (x.testBit n && !(decide (n = l))) := by
  rw [Nat.testBit_and, testBit_not32_bit l n hn]
  have h : decide (l = n) = decide (n = l) := by simp [eq_comm]
  rw [h]

/-- `testBit` of the full 26-letter mask. -/
theorem testBit_full26 (n : Nat) : ((1 <<< 26 : Nat) - 1).testBit n = decide (n < 26) := by
  rw [Nat.one_shiftLeft, Nat.testBit_two_pow_sub_one]

/-- `testBit` of a single-letter mask. -/
theorem testBit_bit (l n : Nat) : ((1 <<< l : Nat)).testBit n = decide (l = n) := by
  rw [Nat.one_shiftLeft, Nat.testBit_two_pow]

/-- The `letters_seen` accumulator: a letter's bit is set exactly when the
letter occurs in the guess. -/
theorem letters_seen_testBit (guessed : Word) (n : Nat) :
    (letters_seen guessed).testBit n = (List.finRange 5).any (fun i => decide ((guessed i : Nat) = n)) := by
  have key : ∀ (l : List (Fin 5)) (acc : Nat),
      (l.foldl (fun acc i => acc ||| (1 <<< ((guessed i : Nat)))) acc).testBit n =
        (acc.testBit n || l.any (fun i => decide ((guessed i : Nat) = n))) := by
    intro l
    induction l with
    | nil => simp
    | cons x t ih =>
      intro acc
      simp only [List.foldl_cons, List.any_cons, ih, Nat.testBit_or, testBit_bit]
      cases acc.testBit n <;> cases t.any (fun i => decide ((guessed i : Nat) = n)) <;>
        cases hx : (decide ((guessed x : Nat) = n)) <;> simp [hx]
  simpa using key (List.finRange 5) 0

/-! ## Generic list lemmas -/

/-- An invariant preserved by each step of a fold is preserved by the fold. -/
theorem foldl_inv {α σ : Type _} (f : σ → α → σ) (Inv : σ → Prop) :
    ∀ (l : List α) (s : σ), Inv s → (∀ s a, a ∈ l → Inv s → Inv (f s a)) → Inv (l.foldl f s) := by
  intro l
  induction l with
  | nil => intro s h _; simpa using h
  | cons x t ih =>
    intro s h hstep
    simp only [List.foldl_cons]
    exact ih _ (hstep s x (by simp) h) (fun s a ha => hstep s a (by simp [ha]))

/-- Splitting a `countP` along a second (decidable) predicate. -/
theorem countP_split {α : Type _} (l : List α) (p q : α → Bool) :
    l.countP p = l.countP (fun x => p x && q x) + l.countP (fun x => p x && !(q x)) := by
  induction l with
  | nil => simp
  | cons x t ih =>
    simp only [List.countP_cons, ih]
    cases hp : p x <;> cases hq : q x <;> simp [hp, hq] <;> omega

/-- `countP` of a disjunction of disjoint predicates adds. -/
theorem countP_or_disjoint {α : Type _} (l : List α) (p q : α → Bool)
    (h : ∀ x ∈ l, ¬(p x = true ∧ q x = true)) :
    l.countP (fun x => p x || q x) = l.countP p + l.countP q := by
  induction l with
  | nil => simp
  | cons x t ih =>
    have hx := h x (by simp)
    have ht : ∀ y ∈ t, ¬(p y = true ∧ q y = true) := fun y hy => h y (by simp [hy])
    simp only [List.countP_cons, ih ht]
    cases hp : p x <;> cases hq : q x <;> simp [hp, hq] at hx ⊢ <;> omega

/-- If `p` implies `q` on a list and `q` does not count more often than `p`,
then `q` implies `p` on the list. -/
theorem countP_le_imp {α : Type _} (l : List α) (p q : α → Bool) :
    (∀ x ∈ l, p x = true → q x = true) → l.countP q ≤ l.countP p →
      ∀ x ∈ l, q x = true → p x = true := by
  induction l with
  | nil => simp
  | cons y t ih =>
    intro himp hcnt x hx hqx
    have himpt : ∀ x ∈ t, p x = true → q x = true := fun x hx => himp x (by simp [hx])
    have hmono := List.countP_mono_left himpt
    have hy : p y = true → q y = true := himp y (by simp)
    simp only [List.countP_cons] at hcnt
    rcases List.mem_cons.mp hx with hx | hx
    · -- x = y
      subst hx
      by_contra hpx
      simp only [Bool.not_eq_true] at hpx
      simp [hpx, hqx] at hcnt
      omega
    · -- x ∈ t
      refine ih himpt ?_ x hx hqx
      by_cases hpy : p y = true
      · simp [hpy, hy hpy] at hcnt; omega
      · simp only [Bool.not_eq_true] at hpy
        simp [hpy] at hcnt
        omega

/-- Counting, over the positions `0..5`, membership in a duplicate-free list
of small naturals conjoined with a predicate, is counting the predicate on
that list. -/
theorem countP_finRange_mem {ns : List Nat} (q : Nat → Bool) (hnd : ns.Nodup)
    (hlt : ∀ n ∈ ns, n < 5) :
    (List.finRange 5).countP (fun i : Fin 5 => decide ((i : Nat) ∈ ns) && q (i : Nat)) =
      ns.countP q := by
  have key : ∀ (ns : List Nat), ns.Nodup → (∀ n ∈ ns, n < 5) →
      (List.range 5).countP (fun n => decide (n ∈ ns) && q n) = ns.countP q := by
    intro ns
    induction ns with
    | nil => simp
    | cons x t ih =>
      intro hnd hlt
      have hxt : x ∉ t := (List.nodup_cons.mp hnd).1
      have hstep : ∀ n ∈ List.range 5,
          ((decide (n ∈ x :: t) && q n) = true ↔
            ((decide (n = x) && q n) || (decide (n ∈ t) && q n)) = true) := by
        intro n _
        by_cases h1 : n = x <;> by_cases h2 : n ∈ t <;> simp [h1, h2]
      rw [List.countP_congr hstep, countP_or_disjoint]
      · have h1 : (List.range 5).countP (fun n => decide (n = x) && q n) =
            if q x then 1 else 0 := by
          have hc : ∀ n ∈ List.range 5,
              ((decide (n = x) && q n) = true ↔ (decide (n = x) && q x) = true) := by
            intro n _
            by_cases h : n = x <;> simp [h]
          rw [List.countP_congr hc]
          cases hq : q x with
          | false => simp
          | true =>
            simp only [hq, Bool.and_true, if_true]
            have hcv : (List.range 5).countP (fun n => decide (n = x)) =
                (List.range 5).count x := by
              rw [List.count]
              refine List.countP_congr ?_
              intro n _
              simp
            rw [hcv, List.count_eq_one_of_mem (List.nodup_range 5)
              (List.mem_range.mpr (hlt x (by simp)))]
        rw [h1, ih (List.nodup_cons.mp hnd).2 (fun n hn => hlt n (by simp [hn])),
          List.countP_cons]
        cases hq : q x <;> simp [hq] <;> omega
      · intro n _ ⟨h1, h2⟩
        simp only [decide_eq_true_eq, Bool.and_eq_true] at h1 h2
        exact hxt (h1.1 ▸ h2.1)
  calc (List.finRange 5).countP (fun i : Fin 5 => decide ((i : Nat) ∈ ns) && q (i : Nat))
      = ((List.finRange 5).map Fin.val).countP (fun n => decide (n ∈ ns) && q n) := by
        rw [List.countP_map]; rfl
    _ = (List.range 5).countP (fun n => decide (n ∈ ns) && q n) := by
        rw [List.map_coe_finRange]
    _ = ns.countP q := key ns hnd hlt

/-! ## Properties of the sort-and-sweep matching -/

/-- Unfolding lemma for `yellow_matches` on a cons. -/
theorem yellow_matches_cons (c i : Nat) (gs : List (Nat × Nat)) (as : List Nat) :
    yellow_matches ((c, i) :: gs) as =
      match as.dropWhile (fun a => decide (a < c)) with
      | [] => []
      | a :: rest =>
        if c < a then yellow_matches gs (a :: rest)
        else (c, i) :: yellow_matches gs rest := rfl

/-- The head surviving a `dropWhile` fails the predicate. -/
theorem dropWhile_head_not {α : Type _} (p : α → Bool) :
    ∀ (l : List α) (a : α) (rest : List α), l.dropWhile p = a :: rest → p a = false := by
  intro l
  induction l with
  | nil => intro a rest h; simp at h
  | cons x t ih =>
    intro a rest h
    rw [List.dropWhile_cons] at h
    by_cases hx : p x = true
    · exact ih a rest (by simpa [hx] using h)
    · simp only [hx, if_false] at h
      cases h
      simpa using hx

/-- The matched pairs form a sublist of the remaining guessed pairs. -/
theorem yellow_matches_sublist : ∀ (gs : List (Nat × Nat)) (as : List Nat),
    List.Sublist (yellow_matches gs as) gs := by
  intro gs
  induction gs with
  | nil => intro as; simp [yellow_matches]
  | cons q gs' ih =>
    intro as
    obtain ⟨c, i⟩ := q
    rw [yellow_matches_cons]
    cases hd : as.dropWhile (fun a => decide (a < c)) with
    | nil => exact List.nil_sublist _
    | cons a rest =>
      by_cases hca : c < a
      · simp only [hca, if_true]
        exact (ih (a :: rest)).trans (List.sublist_cons_self _ _)
      · simp only [hca, if_false]
        exact (ih rest).cons₂ _

/-- On sorted inputs, the sweep matches each letter exactly
`min (count in the guessed remainder) (count in the actual remainder)`
times. -/
theorem yellow_matches_count (ℓ : Nat) :
    ∀ (gs : List (Nat × Nat)) (as : List Nat),
      (gs.map Prod.fst).Sorted (· ≤ ·) → as.Sorted (· ≤ ·) →
      (yellow_matches gs as).countP (fun p => decide (p.1 = ℓ)) =
        min (gs.countP (fun p => decide (p.1 = ℓ))) (as.count ℓ) := by
  intro gs
  induction gs with
  | nil => intro as _ _; simp [yellow_matches]
  | cons q gs' ih =>
    intro as hsg hsa
    obtain ⟨c, i⟩ := q
    have hfst : ∀ x ∈ gs', c ≤ x.1 := by
      intro x hx
      exact List.rel_of_sorted_cons hsg _ (List.mem_map_of_mem Prod.fst hx)
    have hsg' : (gs'.map Prod.fst).Sorted (· ≤ ·) := List.Sorted.of_cons hsg
    have htd : as.takeWhile (fun a => decide (a < c)) ++
        as.dropWhile (fun a => decide (a < c)) = as := List.takeWhile_append_dropWhile _ _
    have htaken : ∀ a ∈ as.takeWhile (fun a => decide (a < c)), a < c := by
      intro a ha
      simpa using List.mem_takeWhile_imp ha
    have hsd : (as.dropWhile (fun a => decide (a < c))).Sorted (· ≤ ·) :=
      List.Pairwise.sublist (List.dropWhile_sublist _) hsa
    have hcount : as.count ℓ =
        (as.takeWhile (fun a => decide (a < c))).count ℓ +
          (as.dropWhile (fun a => decide (a < c))).count ℓ := by
      conv_lhs => rw [← htd]
      rw [List.count_append]
    rw [yellow_matches_cons]
    cases hd : as.dropWhile (fun a => decide (a < c)) with
    | nil =>
      simp only [List.countP_nil]
      rw [hcount, hd]
      simp only [List.count_nil, Nat.add_zero]
      by_cases hℓ : ℓ < c
      · have h0 : ((c, i) :: gs').countP (fun p => decide (p.1 = ℓ)) = 0 := by
          rw [List.countP_eq_zero]
          intro p hp
          rcases List.mem_cons.mp hp with h | h
          · subst h; simp; omega
          · have := hfst p h; simp; omega
        rw [h0]
        simp
      · have h0 : (as.takeWhile (fun a => decide (a < c))).count ℓ = 0 := by
          rw [List.count_eq_zero]
          intro hmem
          have := htaken ℓ hmem
          omega
        rw [h0]
        simp
    | cons a rest =>
      have hca' : ¬ (a < c) := by simpa using dropWhile_head_not _ as a rest hd
      have hrest : ∀ x ∈ rest, a ≤ x := by
        intro x hx
        have : (a :: rest).Sorted (· ≤ ·) := hd ▸ hsd
        exact List.rel_of_sorted_cons this _ hx
      rw [hcount, hd]
      by_cases hca : c < a
      · simp only [hca, if_true]
        rw [ih (a :: rest) hsg' (hd ▸ hsd)]
        by_cases hℓc : ℓ = c
        · subst hℓc
          have h1 : (a :: rest).count ℓ = 0 := by
            rw [List.count_eq_zero]
            intro hmem
            rcases List.mem_cons.mp hmem with h | h
            · omega
            · have := hrest _ h; omega
          have h2 : (as.takeWhile (fun a => decide (a < ℓ))).count ℓ = 0 := by
            rw [List.count_eq_zero]
            intro hmem
            have := htaken ℓ hmem
            omega
          rw [h1, h2]
          simp
        · rw [List.countP_cons]
          simp only [decide_eq_true_eq, hℓc]
          by_cases hℓ : ℓ < c
          · have h1 : gs'.countP (fun p => decide (p.1 = ℓ)) = 0 := by
              rw [List.countP_eq_zero]
              intro p hp
              have := hfst p hp
              simp
              omega
            rw [h1]
            simp [show ¬ c = ℓ from fun h => hℓc h.symm]
          · have h2 : (as.takeWhile (fun a => decide (a < c))).count ℓ = 0 := by
              rw [List.count_eq_zero]
              intro hmem
              have := htaken ℓ hmem
              omega
            rw [h2]
            simp [Ne.symm hℓc]
      · -- c = a: a match
        have hac : a = c := by omega
        subst hac
        simp only [hca, if_false]
        have hsrest : rest.Sorted (· ≤ ·) := List.Sorted.of_cons (hd ▸ hsd)
        rw [List.countP_cons, List.countP_cons, ih rest hsg' hsrest, List.count_cons]
        by_cases hℓc : ℓ = a
        · subst hℓc
          have h2 : (as.takeWhile (fun x => decide (x < ℓ))).count ℓ = 0 := by
            rw [List.count_eq_zero]
            intro hmem
            have := htaken ℓ hmem
            omega
          rw [h2]
          simp
          omega
        · simp only [decide_eq_true_eq, hℓc]
          by_cases hℓ : ℓ < a
          · have h1 : gs'.countP (fun p => decide (p.1 = ℓ)) = 0 := by
              rw [List.countP_eq_zero]
              intro p hp
              have := hfst p hp
              simp
              omega
            rw [h1]
            simp [show ¬ a = ℓ from fun h => hℓc h.symm]
          · have h2 : (as.takeWhile (fun x => decide (x < a))).count ℓ = 0 := by
              rw [List.count_eq_zero]
              intro hmem
              have := htaken ℓ hmem
              omega
            rw [h2]
            simp [show ¬ a = ℓ from fun h => hℓc h.symm]

/-- A pair of the remaining guessed list that is not matched witnesses a
strict count inequality (used to show that a Black occurrence forces the
actual count to be exhausted). -/
theorem yellow_matches_count_lt (gs : List (Nat × Nat)) (as : List Nat) (c i : Nat)
    (hnd : gs.Nodup) (hmem : (c, i) ∈ gs) (hnot : (c, i) ∉ yellow_matches gs as) :
    (yellow_matches gs as).countP (fun p => decide (p.1 = c)) <
      gs.countP (fun p => decide (p.1 = c)) := by
  have hsub : List.Sublist ((yellow_matches gs as).filter (fun p => decide (p.1 = c)))
      (gs.filter (fun p => decide (p.1 = c))) :=
    List.Sublist.filter _ (yellow_matches_sublist gs as)
  have hlen := hsub.length_le
  rw [List.countP_eq_length_filter, List.countP_eq_length_filter]
  rcases Nat.lt_or_ge ((yellow_matches gs as).filter (fun p => decide (p.1 = c))).length
      (gs.filter (fun p => decide (p.1 = c))).length with h | h
  · exact h
  · exfalso
    have heq := hsub.eq_of_length (Nat.le_antisymm hlen h)
    have hmemf : (c, i) ∈ gs.filter (fun p => decide (p.1 = c)) :=
      List.mem_filter.mpr ⟨hmem, by simp⟩
    rw [← heq] at hmemf
    exact hnot (List.mem_filter.mp hmemf).1

/-! ## Facts about `process_guess` -/

instance : IsTotal (Nat × Nat) pairLe := ⟨by intro a b; unfold pairLe; omega⟩

instance : IsTrans (Nat × Nat) pairLe := ⟨by intro a b c; unfold pairLe; omega⟩

/-- Unfolding `process_guess` at one position. -/
theorem process_guess_eq (g w : Word) (i : Fin 5) :
    process_guess g w i =
      if g i = w i then GuessLetterResult.Green
      else if (i : Nat) ∈
          (yellow_matches (remaining_guess g w) (remaining_actual g w)).map Prod.snd then
        GuessLetterResult.Yellow
      else GuessLetterResult.Black := rfl

/-- A Green result means the letters agree. -/
theorem process_guess_green_iff (g w : Word) (i : Fin 5) :
    process_guess g w i = GuessLetterResult.Green ↔ g i = w i := by
  rw [process_guess_eq]
  by_cases h : g i = w i
  · simp [h]
  · simp only [h, if_false, iff_false]
    split <;> simp

/-- A Yellow result means the position was matched by the sweep. -/
theorem process_guess_yellow_iff (g w : Word) (i : Fin 5) :
    process_guess g w i = GuessLetterResult.Yellow ↔
      (¬ g i = w i ∧ (i : Nat) ∈
        (yellow_matches (remaining_guess g w) (remaining_actual g w)).map Prod.snd) := by
  rw [process_guess_eq]
  by_cases h : g i = w i
  · simp [h]
  · simp only [h, if_false, not_false_iff, true_and]
    split <;> simp_all

/-- A Black result means a non-exact, unmatched position. -/
theorem process_guess_black_iff (g w : Word) (i : Fin 5) :
    process_guess g w i = GuessLetterResult.Black ↔
      (¬ g i = w i ∧ ¬ (i : Nat) ∈
        (yellow_matches (remaining_guess g w) (remaining_actual g w)).map Prod.snd) := by
  rw [process_guess_eq]
  by_cases h : g i = w i
  · simp [h]
  · simp only [h, if_false, not_false_iff, true_and]
    split <;> simp_all

/-- Membership in the non-exact position list. -/
theorem mem_nonGreenPositions (g w : Word) (i : Fin 5) :
    i ∈ nonGreenPositions g w ↔ ¬ g i = w i := by
  simp [nonGreenPositions, List.mem_filter, List.mem_finRange]

/-- The remaining guessed pairs, up to order. -/
theorem remaining_guess_perm (g w : Word) :
    (remaining_guess g w).Perm
      ((nonGreenPositions g w).map (fun i => (((g i : Nat)), (i : Nat)))) :=
  List.perm_insertionSort _ _

/-- The remaining actual letters, up to order. -/
theorem remaining_actual_perm (g w : Word) :
    (remaining_actual g w).Perm ((nonGreenPositions g w).map (fun i => ((w i : Nat)))) :=
  List.perm_insertionSort _ _

/-- Every remaining guessed pair is `(letter, position)` for a non-exact
position. -/
theorem mem_remaining_guess (g w : Word) (p : Nat × Nat) :
    p ∈ remaining_guess g w ↔ ∃ j : Fin 5, ¬ g j = w j ∧ p = (((g j : Nat)), (j : Nat)) := by
  rw [(remaining_guess_perm g w).mem_iff, List.mem_map]
  constructor
  · rintro ⟨j, hj, rfl⟩
    exact ⟨j, (mem_nonGreenPositions g w j).mp hj, rfl⟩
  · rintro ⟨j, hj, rfl⟩
    exact ⟨j, (mem_nonGreenPositions g w j).mpr hj, rfl⟩

/-- The non-exact position list has no duplicates. -/
theorem nonGreenPositions_nodup (g w : Word) : (nonGreenPositions g w).Nodup :=
  (List.nodup_finRange 5).filter _

/-- The remaining guessed pairs have no duplicates. -/
theorem remaining_guess_nodup (g w : Word) : (remaining_guess g w).Nodup := by
  refine (remaining_guess_perm g w).nodup_iff.mpr ?_
  refine (nonGreenPositions_nodup g w).map ?_
  intro i j hij
  have : (i : Nat) = (j : Nat) := congrArg Prod.snd hij
  exact Fin.val_injective this

/-- The matched positions have no duplicates. -/
theorem yellow_snd_nodup (g w : Word) :
    ((yellow_matches (remaining_guess g w) (remaining_actual g w)).map Prod.snd).Nodup := by
  refine List.Nodup.sublist (List.Sublist.map Prod.snd (yellow_matches_sublist _ _)) ?_
  have h1 : ((remaining_guess g w).map Prod.snd).Perm
      ((nonGreenPositions g w).map Fin.val) := by
    have h2 := (remaining_guess_perm g w).map Prod.snd
    rw [List.map_map] at h2
    exact h2
  refine h1.nodup_iff.mpr ?_
  exact (nonGreenPositions_nodup g w).map Fin.val_injective

/-- Every matched pair comes from a non-exact position. -/
theorem mem_yellow_matches (g w : Word) (p : Nat × Nat)
    (hp : p ∈ yellow_matches (remaining_guess g w) (remaining_actual g w)) :
    ∃ j : Fin 5, ¬ g j = w j ∧ p = (((g j : Nat)), (j : Nat)) :=
  (mem_remaining_guess g w p).mp ((yellow_matches_sublist _ _).mem hp)

/-- The first components of the sorted remaining guessed pairs increase. -/
theorem remaining_guess_sorted_fst (g w : Word) :
    ((remaining_guess g w).map Prod.fst).Sorted (· ≤ ·) := by
  have h : (remaining_guess g w).Sorted pairLe := List.sorted_insertionSort pairLe _
  exact List.Pairwise.map Prod.fst (fun a b hab => by unfold pairLe at hab; omega) h

/-- The sorted remaining actual letters increase. -/
theorem remaining_actual_sorted (g w : Word) :
    (remaining_actual g w).Sorted (· ≤ ·) :=
  List.sorted_insertionSort _ _

/-- The number of positions where the guess shows `ℓ` and the actual word
agrees. -/
def greenCount (g w : Word) (ℓ : Letter) : Nat :=
  ((List.finRange 5).filter (fun i => decide (g i = ℓ) && decide (g i = w i))).length

/-- The remaining guessed pairs carry `countLetter g ℓ` minus the exact
matches of `ℓ`. -/
theorem remaining_guess_countP (g w : Word) (ℓ : Letter) :
    greenCount g w ℓ +
      (remaining_guess g w).countP (fun p => decide (p.1 = (ℓ : Nat))) = countLetter g ℓ := by
  rw [(remaining_guess_perm g w).countP_eq, List.countP_map]
  unfold greenCount countLetter nonGreenPositions
  rw [← List.countP_eq_length_filter, ← List.countP_eq_length_filter, List.countP_filter]
  rw [countP_split ((List.finRange 5)) (fun i => decide (g i = ℓ)) (fun i => decide (g i = w i))]
  have h1 : ∀ i ∈ List.finRange 5,
      (((fun p : Nat × Nat => decide (p.1 = (ℓ : Nat))) ∘
          fun i => (((g i : Nat)), (i : Nat))) i && decide (¬ g i = w i)) = true ↔
        (decide (g i = ℓ) && !(decide (g i = w i))) = true := by
    intro i _
    simp [Function.comp, Fin.val_inj]
  rw [List.countP_congr h1]

/-- The remaining actual letters carry `countLetter w ℓ` minus the exact
matches of `ℓ`. -/
theorem remaining_actual_count (g w : Word) (ℓ : Letter) :
    greenCount g w ℓ + (remaining_actual g w).count ((ℓ : Nat)) = countLetter w ℓ := by
  rw [(remaining_actual_perm g w).count_eq, List.count, List.countP_map]
  unfold greenCount countLetter nonGreenPositions
  rw [← List.countP_eq_length_filter, ← List.countP_eq_length_filter, List.countP_filter]
  have hg : ∀ i ∈ List.finRange 5,
      (decide (g i = ℓ) && decide (g i = w i)) = true ↔
        (decide (w i = ℓ) && decide (g i = w i)) = true := by
    intro i _
    by_cases h : g i = w i <;> simp [h]
  rw [List.countP_congr hg,
    countP_split ((List.finRange 5)) (fun i => decide (w i = ℓ)) (fun i => decide (g i = w i))]
  have h1 : ∀ i ∈ List.finRange 5,
      (((fun x : Nat => x == (ℓ : Nat)) ∘ fun i => ((w i : Nat))) i &&
          decide (¬ g i = w i)) = true ↔
        (decide (w i = ℓ) && !(decide (g i = w i))) = true := by
    intro i _
    simp [Function.comp, Fin.val_inj]
  rw [List.countP_congr h1]

/-- The positions marked Yellow for letter `ℓ` are exactly the sweep's matched
pairs with first component `ℓ`. -/
theorem yellow_position_count (g w : Word) (ℓ : Letter) :
    ((List.finRange 5).filter (fun i => decide (g i = ℓ) &&
        decide (process_guess g w i = GuessLetterResult.Yellow))).length =
      (yellow_matches (remaining_guess g w) (remaining_actual g w)).countP
        (fun p => decide (p.1 = (ℓ : Nat))) := by
  classical
  set ys := yellow_matches (remaining_guess g w) (remaining_actual g w) with hys
  set ns := ys.map Prod.snd with hns
  have hy : ∀ p ∈ ys, ∃ j : Fin 5, ¬ g j = w j ∧ p = (((g j : Nat)), (j : Nat)) :=
    fun p hp => mem_yellow_matches g w p hp
  have hnd : ns.Nodup := yellow_snd_nodup g w
  have hlt : ∀ n ∈ ns, n < 5 := by
    intro n hn
    obtain ⟨p, hp, rfl⟩ := List.mem_map.mp hn
    obtain ⟨j, _, rfl⟩ := hy p hp
    exact j.isLt
  -- if a position index is matched, the position is non-exact
  have hmem_ng : ∀ i : Fin 5, (i : Nat) ∈ ns → ¬ g i = w i := by
    intro i hi
    obtain ⟨p, hp, hpi⟩ := List.mem_map.mp hi
    obtain ⟨j, hj, rfl⟩ := hy p hp
    have : j = i := Fin.val_injective hpi
    exact this ▸ hj
  have key := countP_finRange_mem
    (fun n => decide (∃ h : n < 5, g ⟨n, h⟩ = ℓ)) hnd hlt
  rw [← List.countP_eq_length_filter]
  have hpt : ∀ i ∈ List.finRange 5,
      (decide (g i = ℓ) && decide (process_guess g w i = GuessLetterResult.Yellow)) = true ↔
        (decide ((i : Nat) ∈ ns) && decide (∃ h : (i : Nat) < 5, g ⟨(i : Nat), h⟩ = ℓ)) = true := by
    intro i _
    rw [Bool.and_eq_true, Bool.and_eq_true]
    simp only [decide_eq_true_eq]
    constructor
    · rintro ⟨h1, h2⟩
      obtain ⟨-, hm⟩ := (process_guess_yellow_iff g w i).mp h2
      exact ⟨hm, i.isLt, by simpa using h1⟩
    · rintro ⟨hm, _, h2⟩
      refine ⟨by simpa using h2, (process_guess_yellow_iff g w i).mpr ⟨hmem_ng i hm, hm⟩⟩
  have key2 : (List.finRange 5).countP
      (fun i : Fin 5 => decide ((i : Nat) ∈ ns) &&
        decide (∃ h : (i : Nat) < 5, g ⟨(i : Nat), h⟩ = ℓ)) =
      ns.countP (fun n => decide (∃ h : n < 5, g ⟨n, h⟩ = ℓ)) := key
  rw [List.countP_congr hpt, key2, hns, List.countP_map]
  refine List.countP_congr ?_
  intro p hp
  obtain ⟨j, _, rfl⟩ := hy p hp
  simp [Function.comp, Fin.val_inj]

/-- Splitting the Green-or-Yellow count of a letter into Green and Yellow
parts. -/
theorem yg_count_split (g w : Word) (ℓ : Letter) :
    yg_count g (process_guess g w) ℓ =
      greenCount g w ℓ +
        ((List.finRange 5).filter (fun i => decide (g i = ℓ) &&
          decide (process_guess g w i = GuessLetterResult.Yellow))).length := by
  unfold yg_count greenCount
  rw [← List.countP_eq_length_filter, ← List.countP_eq_length_filter,
    ← List.countP_eq_length_filter]
  have hsplit : ∀ i ∈ List.finRange 5,
      (decide (g i = ℓ) && decide (process_guess g w i ≠ GuessLetterResult.Black)) = true ↔
        ((decide (g i = ℓ) && decide (process_guess g w i = GuessLetterResult.Green)) ||
         (decide (g i = ℓ) && decide (process_guess g w i = GuessLetterResult.Yellow))) = true := by
    intro i _
    cases h : process_guess g w i <;> simp [h]
  rw [List.countP_congr hsplit, countP_or_disjoint]
  · congr 1
    refine List.countP_congr ?_
    intro i _
    rw [Bool.and_eq_true, Bool.and_eq_true]
    simp only [decide_eq_true_eq]
    rw [process_guess_green_iff]
  · intro i _ ⟨h1, h2⟩
    simp only [Bool.and_eq_true, decide_eq_true_eq] at h1 h2
    rw [h1.2] at h2
    cases h2.2

/-- The Green-or-Yellow count of any letter is the minimum of its occurrence
counts in the guessed and the actual word. -/
theorem yg_count_eq_min (g w : Word) (ℓ : Letter) :
    yg_count g (process_guess g w) ℓ = min (countLetter g ℓ) (countLetter w ℓ) := by
  have h1 := yg_count_split g w ℓ
  have h2 := yellow_position_count g w ℓ
  have h3 := yellow_matches_count ((ℓ : Nat)) (remaining_guess g w) (remaining_actual g w)
    (remaining_guess_sorted_fst g w) (remaining_actual_sorted g w)
  have h4 := remaining_guess_countP g w ℓ
  have h5 := remaining_actual_count g w ℓ
  omega

/-- When some occurrence of a letter comes back Black, the Green-or-Yellow
count of that letter equals its occurrence count in the actual word (every
actual occurrence is accounted for). -/
theorem yg_count_of_black (g w : Word) (j : Fin 5)
    (hb : process_guess g w j = GuessLetterResult.Black) :
    yg_count g (process_guess g w) (g j) = countLetter w (g j) := by
  obtain ⟨hng, hnm⟩ := (process_guess_black_iff g w j).mp hb
  have hmem : (((g j : Nat)), (j : Nat)) ∈ remaining_guess g w :=
    (mem_remaining_guess g w _).mpr ⟨j, hng, rfl⟩
  have hnot : (((g j : Nat)), (j : Nat)) ∉
      yellow_matches (remaining_guess g w) (remaining_actual g w) := by
    intro hin
    exact hnm (List.mem_map.mpr ⟨_, hin, rfl⟩)
  have hlt := yellow_matches_count_lt (remaining_guess g w) (remaining_actual g w)
    ((g j : Nat)) ((j : Nat)) (remaining_guess_nodup g w) hmem hnot
  have h1 := yg_count_split g w (g j)
  have h2 := yellow_position_count g w (g j)
  have h3 := yellow_matches_count (((g j) : Nat)) (remaining_guess g w) (remaining_actual g w)
    (remaining_guess_sorted_fst g w) (remaining_actual_sorted g w)
  have h4 := remaining_guess_countP g w (g j)
  have h5 := remaining_actual_count g w (g j)
  omega

/-! ## Facts about `GuessState.update` -/

/-- What the first update loop does to one position's candidate set. -/
def choice_formula (g : Word) (gwr : GuessWordResult) (j : Fin 5) (x : Nat) : Nat :=
  match gwr j with
  | GuessLetterResult.Green => 1 <<< ((g j : Nat))
  | _ => x &&& not32 (1 <<< ((g j : Nat)))

theorem update_step1_choices_self (g : Word) (gwr : GuessWordResult) (s : GuessState)
    (i : Fin 5) :
    (update_step1 g gwr s i).letter_choices i = choice_formula g gwr i (s.letter_choices i) := by
  unfold update_step1 choice_formula
  simp

theorem update_step1_choices_other (g : Word) (gwr : GuessWordResult) (s : GuessState)
    (i j : Fin 5) (h : j ≠ i) :
    (update_step1 g gwr s i).letter_choices j = s.letter_choices j := by
  unfold update_step1
  simp [Function.update_noteq h]

/-- The candidate sets after the first update loop, position by position: each
position in the processed list is narrowed once from its original set. -/
theorem loop1_choices (g : Word) (gwr : GuessWordResult) :
    ∀ (l : List (Fin 5)), l.Nodup → ∀ (s : GuessState) (j : Fin 5),
      ((l.foldl (update_step1 g gwr) s).letter_choices j) =
        if j ∈ l then choice_formula g gwr j (s.letter_choices j) else s.letter_choices j := by
  intro l
  induction l with
  | nil => intro _ s j; simp
  | cons i t ih =>
    intro hnd s j
    obtain ⟨hit, hndt⟩ := List.nodup_cons.mp hnd
    simp only [List.foldl_cons]
    rw [ih hndt]
    by_cases hjt : j ∈ t
    · have hji : j ≠ i := fun h => hit (h ▸ hjt)
      rw [if_pos hjt, update_step1_choices_other g gwr s i j hji,
        if_pos (List.mem_cons.mpr (Or.inr hjt))]
    · by_cases hji : j = i
      · subst hji
        rw [if_neg hjt, update_step1_choices_self, if_pos (List.mem_cons.mpr (Or.inl rfl))]
      · rw [if_neg hjt, update_step1_choices_other g gwr s i j hji,
          if_neg (by simp [hji, hjt])]

/-- The count update of the first loop, with the match written as a
conditional. -/
theorem step1_lc (g : Word) (gwr : GuessWordResult) (s : GuessState) (i : Fin 5) :
    (update_step1 g gwr s i).letter_counts =
      Function.update s.letter_counts (g i)
        (if gwr i = GuessLetterResult.Black
          then ⟨(s.letter_counts (g i)).start, 1 + yg_count g gwr (g i)⟩
          else ⟨yg_count g gwr (g i), (s.letter_counts (g i)).stop⟩) := by
  unfold update_step1
  cases gwr i <;> rfl

theorem update_step1_counts_start (g : Word) (gwr : GuessWordResult) (s : GuessState)
    (i : Fin 5) (ℓ : Letter) :
    ((update_step1 g gwr s i).letter_counts ℓ).start =
      if (decide (g i = ℓ) && decide (gwr i ≠ GuessLetterResult.Black)) then yg_count g gwr ℓ
      else (s.letter_counts ℓ).start := by
  rw [step1_lc]
  by_cases hgi : ℓ = g i
  · rw [hgi, Function.update_same]
    by_cases hB : gwr i = GuessLetterResult.Black <;> simp [hB]
  · rw [Function.update_noteq hgi]
    have hgi' : ¬ g i = ℓ := fun h => hgi h.symm
    simp [hgi']

theorem update_step1_counts_stop (g : Word) (gwr : GuessWordResult) (s : GuessState)
    (i : Fin 5) (ℓ : Letter) :
    ((update_step1 g gwr s i).letter_counts ℓ).stop =
      if (decide (g i = ℓ) && decide (gwr i = GuessLetterResult.Black)) then
        1 + yg_count g gwr ℓ
      else (s.letter_counts ℓ).stop := by
  rw [step1_lc]
  by_cases hgi : ℓ = g i
  · rw [hgi, Function.update_same]
    by_cases hB : gwr i = GuessLetterResult.Black <;> simp [hB]
  · rw [Function.update_noteq hgi]
    have hgi' : ¬ g i = ℓ := fun h => hgi h.symm
    simp [hgi']

/-- Fusing two nested conditionals with the same branches. -/
theorem if_or_bool {α : Type _} (a b : Bool) (x y : α) :
    (if b then x else if a then x else y) = if (a || b) then x else y := by
  cases a <;> cases b <;> simp

/-- The lower count bound after the first update loop: overwritten with
`yellow_or_green_count` exactly when the letter has a Green/Yellow occurrence
among the processed positions. -/
theorem loop1_counts_start (g : Word) (gwr : GuessWordResult) :
    ∀ (l : List (Fin 5)) (s : GuessState) (ℓ : Letter),
      ((l.foldl (update_step1 g gwr) s).letter_counts ℓ).start =
        if l.any (fun i => decide (g i = ℓ) && decide (gwr i ≠ GuessLetterResult.Black)) then
          yg_count g gwr ℓ
        else (s.letter_counts ℓ).start := by
  intro l
  induction l with
  | nil => intro s ℓ; simp
  | cons i t ih =>
    intro s ℓ
    simp only [List.foldl_cons, List.any_cons]
    rw [ih, update_step1_counts_start]
    exact if_or_bool _ _ _ _

/-- The upper count bound after the first update loop: overwritten with
`yellow_or_green_count + 1` exactly when the letter has a Black occurrence
among the processed positions. -/
theorem loop1_counts_stop (g : Word) (gwr : GuessWordResult) :
    ∀ (l : List (Fin 5)) (s : GuessState) (ℓ : Letter),
      ((l.foldl (update_step1 g gwr) s).letter_counts ℓ).stop =
        if l.any (fun i => decide (g i = ℓ) && decide (gwr i = GuessLetterResult.Black)) then
          1 + yg_count g gwr ℓ
        else (s.letter_counts ℓ).stop := by
  intro l
  induction l with
  | nil => intro s ℓ; simp
  | cons i t ih =>
    intro s ℓ
    simp only [List.foldl_cons, List.any_cons]
    rw [ih, update_step1_counts_stop]
    exact if_or_bool _ _ _ _

/-- The per-word invariant that drives soundness: every position's letter is
still allowed there, and every letter's occurrence count lies inside its
(possibly default) range. -/
def wordInv (w : Word) (s : GuessState) : Prop :=
  (∀ i : Fin 5, (s.letter_choices i).testBit ((w i : Nat))) ∧
  (∀ ℓ : Letter, (s.letter_counts ℓ).start ≤ countLetter w ℓ ∧
     countLetter w ℓ < (s.letter_counts ℓ).stop)

/-- A word has at most five occurrences of any letter. -/
theorem countLetter_le_five (w : Word) (ℓ : Letter) : countLetter w ℓ ≤ 5 := by
  unfold countLetter
  calc ((List.finRange 5).filter (fun i => decide (w i = ℓ))).length
      ≤ (List.finRange 5).length := List.length_filter_le _ _
    _ = 5 := by simp

theorem possible_of_wordInv {w : Word} {s : GuessState} (h : wordInv w s) :
    s.is_word_possible w = true := by
  obtain ⟨h1, h2⟩ := h
  unfold GuessState.is_word_possible
  rw [Bool.and_eq_true, List.all_eq_true, List.all_eq_true]
  constructor
  · intro i _
    simpa [mem_bit_iff] using h1 i
  · intro ℓ _
    have := h2 ℓ
    simp only [Bool.or_eq_true, Bool.and_eq_true, decide_eq_true_eq]
    right
    omega

theorem wordInv_of_possible {w : Word} {s : GuessState} (h : s.is_word_possible w = true) :
    wordInv w s := by
  unfold GuessState.is_word_possible at h
  rw [Bool.and_eq_true, List.all_eq_true, List.all_eq_true] at h
  obtain ⟨h1, h2⟩ := h
  constructor
  · intro i
    have := h1 i (List.mem_finRange i)
    simpa [mem_bit_iff] using this
  · intro ℓ
    have := h2 ℓ (List.mem_finRange ℓ)
    simp only [Bool.or_eq_true, Bool.and_eq_true, decide_eq_true_eq] at this
    rcases this with hdef | hin
    · rw [hdef]
      have h5 := countLetter_le_five w ℓ
      refine ⟨Nat.zero_le _, ?_⟩
      show countLetter w ℓ < (6 : Nat)
      omega
    · exact hin

/-- The number of positions whose candidate set is exactly the letter
(the implied lower count bound of the cross-propagation pass). -/
def impliedStart (s : GuessState) (c : Letter) : Nat :=
  ((List.finRange 5).filter (fun i => decide (s.letter_choices i = 1 <<< ((c : Nat))))).length

/-- The number of positions whose candidate set still contains the letter
(one less than the implied upper count bound of the cross-propagation pass). -/
def impliedContaining (s : GuessState) (c : Letter) : Nat :=
  ((List.finRange 5).filter
    (fun i => decide (s.letter_choices i &&& (1 <<< ((c : Nat))) ≠ 0))).length

/-- The tightened count range produced by the cross-propagation pass. -/
def crossLC (s : GuessState) (c : Letter) : LetterCount :=
  ⟨Nat.max (s.letter_counts c).start (impliedStart s c),
   Nat.min (s.letter_counts c).stop (impliedContaining s c + 1)⟩

/-- Unfolding `cross_step` into its three outcomes. -/
theorem cross_step_eq (s : GuessState) (c : Letter) :
    cross_step s c =
      if crossLC s c = ⟨0, 1⟩ then
        { letter_choices := fun i => s.letter_choices i &&& not32 (1 <<< ((c : Nat))),
          letter_counts := Function.update s.letter_counts c (crossLC s c) }
      else if (crossLC s c).stop - (crossLC s c).start = 1 ∧
          impliedContaining s c = (crossLC s c).start then
        { letter_choices := fun i =>
            if s.letter_choices i &&& (1 <<< ((c : Nat))) ≠ 0 then (1 <<< ((c : Nat)))
            else s.letter_choices i,
          letter_counts := Function.update s.letter_counts c (crossLC s c) }
      else
        { letter_choices := s.letter_choices,
          letter_counts := Function.update s.letter_counts c (crossLC s c) } := rfl

/-- For a word satisfying the invariant, the implied lower bound undercounts
its occurrences of the letter. -/
theorem impliedStart_le {w : Word} {s : GuessState}
    (h1 : ∀ i : Fin 5, (s.letter_choices i).testBit ((w i : Nat))) (c : Letter) :
    impliedStart s c ≤ countLetter w c := by
  unfold impliedStart countLetter
  rw [← List.countP_eq_length_filter, ← List.countP_eq_length_filter]
  refine List.countP_mono_left ?_
  intro i _ hp
  simp only [decide_eq_true_eq] at hp ⊢
  have hb := h1 i
  rw [hp, testBit_bit] at hb
  exact Fin.val_injective (of_decide_eq_true hb).symm

/-- For a word satisfying the invariant, the positions containing the letter
overcount its occurrences of the letter. -/
theorem le_impliedContaining {w : Word} {s : GuessState}
    (h1 : ∀ i : Fin 5, (s.letter_choices i).testBit ((w i : Nat))) (c : Letter) :
    countLetter w c ≤ impliedContaining s c := by
  unfold impliedContaining countLetter
  rw [← List.countP_eq_length_filter, ← List.countP_eq_length_filter]
  refine List.countP_mono_left ?_
  intro i _ hp
  simp only [decide_eq_true_eq] at hp ⊢
  rw [mem_bit_iff]
  have hb := h1 i
  rw [hp] at hb
  exact hb

/-- The cross-propagation pass for one letter preserves the word invariant. -/
theorem cross_step_wordInv (w : Word) (s : GuessState) (c : Letter) (h : wordInv w s) :
    wordInv w (cross_step s c) := by
  obtain ⟨h1, h2⟩ := h
  have hexact_le : impliedStart s c ≤ countLetter w c := impliedStart_le h1 c
  have hcount_le : countLetter w c ≤ impliedContaining s c := le_impliedContaining h1 c
  have hc2 := h2 c
  have hin' : (crossLC s c).start ≤ countLetter w c ∧ countLetter w c < (crossLC s c).stop := by
    unfold crossLC
    simp only [Nat.max_le, Nat.lt_min]
    omega
  have hcounts : ∀ ℓ : Letter,
      ((Function.update s.letter_counts c (crossLC s c)) ℓ).start ≤ countLetter w ℓ ∧
        countLetter w ℓ < ((Function.update s.letter_counts c (crossLC s c)) ℓ).stop := by
    intro ℓ
    by_cases hℓ : ℓ = c
    · subst hℓ
      rw [Function.update_same]
      exact hin'
    · rw [Function.update_noteq hℓ]
      exact h2 ℓ
  rw [cross_step_eq]
  split
  · -- pass 1: the letter is absent; it is removed from every set
    rename_i hzero
    have hcz : countLetter w c = 0 := by
      rw [hzero] at hin'
      simp only at hin'
      omega
    refine ⟨?_, hcounts⟩
    intro i
    simp only
    rw [testBit_and_not32 _ _ _ (by omega), Bool.and_eq_true]
    refine ⟨h1 i, ?_⟩
    simp only [Bool.not_eq_eq_eq_not, Bool.not_true, decide_eq_false_iff_not]
    intro hv
    have hwc : w i = c := Fin.val_injective hv
    have hpos : 0 < countLetter w c := by
      unfold countLetter
      rw [← List.countP_eq_length_filter]
      have hne : (List.finRange 5).countP (fun i => decide (w i = c)) ≠ 0 := by
        rw [Ne, List.countP_eq_zero]
        push_neg
        exact ⟨i, List.mem_finRange i, by simp [hwc]⟩
      omega
    omega
  · split
    · -- pass 2: the count is settled and every admitting position is locked
      rename_i hone
      obtain ⟨hdiff, hcnt⟩ := hone
      -- every position whose set still contains the letter carries it in `w`
      have hall : ∀ i : Fin 5, (s.letter_choices i &&& (1 <<< ((c : Nat))) ≠ 0) → w i = c := by
        have himp : ∀ i ∈ List.finRange 5,
            (decide (w i = c)) = true →
              (decide (s.letter_choices i &&& (1 <<< ((c : Nat))) ≠ 0)) = true := by
          intro i _ hp
          simp only [decide_eq_true_eq] at hp ⊢
          rw [mem_bit_iff]
          have hb := h1 i
          rw [hp] at hb
          exact hb
        have hle : (List.finRange 5).countP
              (fun i => decide (s.letter_choices i &&& (1 <<< ((c : Nat))) ≠ 0)) ≤
            (List.finRange 5).countP (fun i => decide (w i = c)) := by
          have e1 : (List.finRange 5).countP
              (fun i => decide (s.letter_choices i &&& (1 <<< ((c : Nat))) ≠ 0)) =
              impliedContaining s c := by
            unfold impliedContaining
            rw [List.countP_eq_length_filter]
          have e2 : (List.finRange 5).countP (fun i => decide (w i = c)) = countLetter w c := by
            unfold countLetter
            rw [List.countP_eq_length_filter]
          omega
        have hback := countP_le_imp (List.finRange 5) (fun i => decide (w i = c))
          (fun i => decide (s.letter_choices i &&& (1 <<< ((c : Nat))) ≠ 0)) himp hle
        intro i hi
        have := hback i (List.mem_finRange i) (by simpa using hi)
        simpa using this
      refine ⟨?_, hcounts⟩
      intro i
      simp only
      split
      · rename_i hbi
        rw [hall i hbi, testBit_bit]
        simp
      · exact h1 i
    · exact ⟨h1, hcounts⟩


theorem choice_formula_green {g : Word} {gwr : GuessWordResult} {j : Fin 5} {x : Nat}
    (hG : gwr j = GuessLetterResult.Green) :
    choice_formula g gwr j x = 1 <<< ((g j : Nat)) := by
  unfold choice_formula
  rw [hG]

theorem choice_formula_not_green {g : Word} {gwr : GuessWordResult} {j : Fin 5} {x : Nat}
    (hG : gwr j ≠ GuessLetterResult.Green) :
    choice_formula g gwr j x = x &&& not32 (1 <<< ((g j : Nat))) := by
  unfold choice_formula
  cases h : gwr j with
  | Green => exact absurd h hG
  | Yellow => rfl
  | Black => rfl

/-- A non-Green feedback entry means the letters disagree there. -/
theorem ne_of_not_green {g w : Word} {j : Fin 5}
    (h : process_guess g w j ≠ GuessLetterResult.Green) : ¬ g j = w j :=
  fun he => h ((process_guess_green_iff g w j).mpr he)

/-- Soundness of propagation (the `assert!` in `guess_quality` and
`guess_quality_lower_bound`): a word possible before an update stays possible
after updating with its own feedback, whatever word was guessed. -/
theorem update_preserves_possible (s : GuessState) (g w : Word)
    (h : s.is_word_possible w = true) :
    (s.update g (process_guess g w)).is_word_possible w = true := by
  obtain ⟨h1, h2⟩ := wordInv_of_possible h
  -- phase 1: the per-position loop keeps the invariant
  have hinv1 : wordInv w ((List.finRange 5).foldl (update_step1 g (process_guess g w)) s) := by
    constructor
    · intro j
      rw [loop1_choices g (process_guess g w) (List.finRange 5) (List.nodup_finRange 5) s j,
        if_pos (List.mem_finRange j)]
      by_cases hG : process_guess g w j = GuessLetterResult.Green
      · rw [choice_formula_green hG, testBit_bit]
        have heq : g j = w j := (process_guess_green_iff g w j).mp hG
        simp [heq]
      · rw [choice_formula_not_green hG, testBit_and_not32 _ _ _ (by omega), Bool.and_eq_true]
        refine ⟨h1 j, ?_⟩
        simp only [Bool.not_eq_eq_eq_not, Bool.not_true, decide_eq_false_iff_not]
        intro hv
        exact ne_of_not_green hG (Fin.val_injective hv).symm
    · intro ℓ
      rw [loop1_counts_start g (process_guess g w) (List.finRange 5) s ℓ,
        loop1_counts_stop g (process_guess g w) (List.finRange 5) s ℓ]
      constructor
      · split
        · have hmin := yg_count_eq_min g w ℓ
          omega
        · exact (h2 ℓ).1
      · split
        · rename_i hany
          rw [List.any_eq_true] at hany
          obtain ⟨j, hjmem, hj⟩ := hany
          rw [Bool.and_eq_true, decide_eq_true_eq, decide_eq_true_eq] at hj
          obtain ⟨hgj, hB⟩ := hj
          have hblack := yg_count_of_black g w j hB
          rw [hgj] at hblack
          omega
        · exact (h2 ℓ).2
  -- phase 2: the cross-propagation loop keeps the invariant
  have hinv2 : wordInv w (s.update g (process_guess g w)) := by
    unfold GuessState.update
    exact foldl_inv cross_step (wordInv w) _ _ hinv1
      (fun st a _ hI => cross_step_wordInv w st a hI)
  exact possible_of_wordInv hinv2

/-- One cross-propagation step only shrinks candidate sets. -/
theorem cross_step_choices_subset (s : GuessState) (c : Letter) (i : Fin 5) (b : Nat)
    (hb : b < 32) (h : ((cross_step s c).letter_choices i).testBit b = true) :
    (s.letter_choices i).testBit b = true := by
  rw [cross_step_eq] at h
  split at h
  · simp only at h
    rw [testBit_and_not32 _ _ _ hb, Bool.and_eq_true] at h
    exact h.1
  · split at h
    · simp only at h
      split at h
      · rename_i hbi
        rw [testBit_bit] at h
        have hcb : (c : Nat) = b := of_decide_eq_true h
        rw [← hcb, ← mem_bit_iff]
        exact hbi
      · exact h
    · exact h

/-- The cross-propagation loop only shrinks candidate sets. -/
theorem foldl_cross_subset : ∀ (l : List Letter) (s : GuessState) (i : Fin 5) (b : Nat),
    b < 32 → ((l.foldl cross_step s).letter_choices i).testBit b = true →
      (s.letter_choices i).testBit b = true := by
  intro l
  induction l with
  | nil => intro s i b _ h; simpa using h
  | cons c t ih =>
    intro s i b hb h
    simp only [List.foldl_cons] at h
    exact cross_step_choices_subset s c i b hb (ih (cross_step s c) i b hb h)

/-- Tightening of the position candidate sets: provided the guessed letter is
currently allowed at each Exact-feedback position, every letter allowed at a
position after `update` was already allowed there before. -/
theorem update_choices_subset (s : GuessState) (g : Word) (gwr : GuessWordResult)
    (hgreen : ∀ i : Fin 5, gwr i = GuessLetterResult.Green →
      (s.letter_choices i).testBit ((g i : Nat)) = true)
    (i : Fin 5) (ℓ : Letter)
    (h : ((s.update g gwr).letter_choices i).testBit ((ℓ : Nat)) = true) :
    (s.letter_choices i).testBit ((ℓ : Nat)) = true := by
  unfold GuessState.update at h
  have h1 := foldl_cross_subset _ _ i ((ℓ : Nat)) (by omega) h
  rw [loop1_choices g gwr (List.finRange 5) (List.nodup_finRange 5) s i,
    if_pos (List.mem_finRange i)] at h1
  by_cases hG : gwr i = GuessLetterResult.Green
  · rw [choice_formula_green hG, testBit_bit] at h1
    have hgl : (g i : Nat) = (ℓ : Nat) := of_decide_eq_true h1
    rw [← hgl]
    exact hgreen i hG
  · rw [choice_formula_not_green hG, testBit_and_not32 _ _ _ (by omega),
      Bool.and_eq_true] at h1
    exact h1.1

/-! ## Facts about the quality evaluation and the search -/

/-- With at least two candidates, `quality` is non-negative. -/
theorem quality_nonneg (s : GuessState) (ws : List Word) (h2 : 2 ≤ ws.length) :
    0 ≤ quality s ws := by
  unfold quality
  have hR : ((ws.filter (fun w => s.is_word_possible w)).length) ≤ ws.length :=
    List.length_filter_le _ _
  have hRq : (((ws.filter (fun w => s.is_word_possible w)).length : Nat) : ℚ) ≤
      ((ws.length : Nat) : ℚ) := by exact_mod_cast hR
  have h2q : (2 : ℚ) ≤ ((ws.length : Nat) : ℚ) := by exact_mod_cast h2
  apply div_nonneg <;> linarith

/-- With at least two candidates of which at least one is still possible,
`quality` is at most one. -/
theorem quality_le_one (s : GuessState) (ws : List Word) (h2 : 2 ≤ ws.length)
    (a : Word) (ha : a ∈ ws) (hposs : s.is_word_possible a = true) :
    quality s ws ≤ 1 := by
  unfold quality
  have hR : 1 ≤ (ws.filter (fun w => s.is_word_possible w)).length :=
    List.length_pos_of_mem (List.mem_filter.mpr ⟨ha, hposs⟩)
  have hRq : (1 : ℚ) ≤ (((ws.filter (fun w => s.is_word_possible w)).length : Nat) : ℚ) := by
    exact_mod_cast hR
  have h2q : (2 : ℚ) ≤ ((ws.length : Nat) : ℚ) := by exact_mod_cast h2
  rw [div_le_one (by linarith)]
  linarith

/-- A sum of values bounded by one is bounded by the length. -/
theorem map_sum_le_length (f : Word → ℚ) (t : List Word) (hb : ∀ a ∈ t, f a ≤ 1) :
    (t.map f).sum ≤ ((t.length : Nat) : ℚ) := by
  have h := List.sum_le_card_nsmul (t.map f) 1 (by
    intro x hx
    obtain ⟨a, ha, rfl⟩ := List.mem_map.mp hx
    exact hb a ha)
  simpa [nsmul_eq_mul] using h

/-- The bounded fold of `guess_quality_lower_bound`, characterized: starting
from index `i` with accumulator `c`, it completes exactly when the lower bound
is reachable, and then returns the exact partial sum. -/
theorem gqlb_fold (s : GuessState) (g : Word) (words : List Word) (mq : ℚ) :
    ∀ (l : List Word) (i : Nat) (c : ℚ),
      words.length = i + l.length →
      (∀ a ∈ l, quality (s.then' g (process_guess g a)) words ≤ 1) →
      ((List.enumFrom i l).foldlM (gqlb_step s g words mq) c : Option ℚ) =
        if l = [] then some c
        else if mq ≤ c + (l.map (fun a => quality (s.then' g (process_guess g a)) words)).sum
          then some (c + (l.map (fun a => quality (s.then' g (process_guess g a)) words)).sum)
          else none := by
  intro l
  induction l with
  | nil => intro i c _ _; simp
  | cons a t ih =>
    intro i c hlen hq
    have hlen' : ((words.length - i - 1 : Nat) : ℚ) = ((t.length : Nat) : ℚ) := by
      simp only [List.length_cons] at hlen
      congr 1
      omega
    have hsum_le :
        (t.map (fun a => quality (s.then' g (process_guess g a)) words)).sum ≤
          ((t.length : Nat) : ℚ) :=
      map_sum_le_length _ t (fun a ha => hq a (by simp [ha]))
    rw [List.enumFrom_cons, List.foldlM_cons]
    show (gqlb_step s g words mq c (i, a)) >>= _ = _
    unfold gqlb_step
    simp only [hlen']
    by_cases hcond :
        c + quality (s.then' g (process_guess g a)) words + ((t.length : Nat) : ℚ) < mq
    · rw [if_pos hcond]
      have hnot : ¬ (mq ≤ c +
          ((a :: t).map (fun a => quality (s.then' g (process_guess g a)) words)).sum) := by
        simp only [List.map_cons, List.sum_cons]
        intro habs
        have : mq ≤ c + quality (s.then' g (process_guess g a)) words +
            ((t.length : Nat) : ℚ) := by linarith
        linarith
      rw [if_neg (by simp : ¬ (a :: t) = []), if_neg hnot]
      rfl
    · rw [if_neg hcond]
      show ((List.enumFrom (i + 1) t).foldlM (gqlb_step s g words mq) _ : Option ℚ) = _
      rw [ih (i + 1) (c + quality (s.then' g (process_guess g a)) words)
        (by simp only [List.length_cons] at hlen ⊢; omega)
        (fun a ha => hq a (by simp [ha]))]
      rcases List.eq_nil_or_concat t with ht | ⟨_, _, hne⟩
      · subst ht
        push_neg at hcond
        simp only [List.length_nil, Nat.cast_zero, add_zero] at hcond
        simp [hcond]
      · have htne : t ≠ [] := by
          subst hne; simp
        rw [if_neg htne, if_neg (by simp : ¬ (a :: t) = [])]
        simp only [List.map_cons, List.sum_cons]
        rw [← add_assoc]

/-- When every per-hypothesis quality is bounded by one (as holds for filtered
candidate lists), the bounded evaluation is exactly: complete (returning the
true quality) when the true quality reaches the bound, abandon otherwise. -/
theorem gqlb_eq (s : GuessState) (g : Word) (words : List Word)
    (hne : words ≠ [])
    (hq : ∀ a ∈ words, quality (s.then' g (process_guess g a)) words ≤ 1)
    (b : ℚ) :
    guess_quality_lower_bound s g words b =
      if b ≤ guess_quality s g words then some (guess_quality s g words) else none := by
  have h0 : words.enum = List.enumFrom 0 words := rfl
  have hn : (0 : ℚ) < ((words.length : Nat) : ℚ) := by
    have := List.length_pos.mpr hne
    exact_mod_cast this
  simp only [guess_quality_lower_bound]
  rw [h0, gqlb_fold s g words (b * ((words.length : Nat) : ℚ)) words 0 0 (by simp) hq,
    if_neg hne]
  unfold guess_quality
  rw [zero_add]
  by_cases hc : b * ((words.length : Nat) : ℚ) ≤
      (words.map (fun a => quality (s.then' g (process_guess g a)) words)).sum
  · rw [if_pos hc, if_pos (by rw [le_div_iff hn]; exact hc)]
    rfl
  · rw [if_neg hc, if_neg (by rw [le_div_iff hn]; exact hc)]
    rfl

/-- A completed bounded evaluation returns the exact partial sum, which
reaches the bound (no hypothesis on the qualities is needed for this
direction). -/
theorem gqlb_fold_some (s : GuessState) (g : Word) (words : List Word) (mq : ℚ) :
    ∀ (l : List Word) (i : Nat) (c r : ℚ),
      words.length = i + l.length →
      ((List.enumFrom i l).foldlM (gqlb_step s g words mq) c : Option ℚ) = some r →
      r = c + (l.map (fun a => quality (s.then' g (process_guess g a)) words)).sum ∧
        (l ≠ [] → mq ≤ r) := by
  intro l
  induction l with
  | nil =>
    intro i c r _ h
    simp only [List.enumFrom_nil, List.foldlM_nil] at h
    cases h
    simp
  | cons a t ih =>
    intro i c r hlen h
    have hlen' : ((words.length - i - 1 : Nat) : ℚ) = ((t.length : Nat) : ℚ) := by
      simp only [List.length_cons] at hlen
      congr 1
      omega
    rw [List.enumFrom_cons, List.foldlM_cons] at h
    revert h
    show (gqlb_step s g words mq c (i, a)) >>= _ = some r → _
    unfold gqlb_step
    simp only [hlen']
    intro h
    by_cases hcond :
        c + quality (s.then' g (process_guess g a)) words + ((t.length : Nat) : ℚ) < mq
    · rw [if_pos hcond] at h
      cases h
    · rw [if_neg hcond] at h
      have h' : ((List.enumFrom (i + 1) t).foldlM (gqlb_step s g words mq)
          (c + quality (s.then' g (process_guess g a)) words) : Option ℚ) = some r := h
      obtain ⟨hr, hb⟩ := ih (i + 1) _ r
        (by simp only [List.length_cons] at hlen ⊢; omega) h'
      constructor
      · rw [hr]
        simp only [List.map_cons, List.sum_cons]
        ring
      · intro _
        rcases List.eq_nil_or_concat t with ht | ⟨_, _, hne⟩
        · subst ht
          push_neg at hcond
          simp only [List.length_nil, Nat.cast_zero, add_zero] at hcond
          rw [hr]
          simpa using hcond
        · exact hb (by subst hne; simp)

/-- The visible completion contract of `guess_quality_lower_bound`: a returned
value is the exact `guess_quality`, and it is at least the supplied bound. -/
theorem gqlb_some (s : GuessState) (g : Word) (words : List Word) (b q : ℚ)
    (hne : words ≠ [])
    (h : guess_quality_lower_bound s g words b = some q) :
    q = guess_quality s g words ∧ b ≤ q := by
  have hn : (0 : ℚ) < ((words.length : Nat) : ℚ) := by
    have := List.length_pos.mpr hne
    exact_mod_cast this
  simp only [guess_quality_lower_bound] at h
  have h0 : words.enum = List.enumFrom 0 words := rfl
  rw [h0] at h
  rw [Option.map_eq_some'] at h
  obtain ⟨r, hr, hq⟩ := h
  obtain ⟨hrs, hrb⟩ := gqlb_fold_some s g words (b * ((words.length : Nat) : ℚ)) words 0 0 r
    (by simp) hr
  have hsum := hrb hne
  subst hq
  rw [hrs, zero_add]
  unfold guess_quality
  constructor
  · rfl
  · rw [le_div_iff hn]
    rw [hrs, zero_add] at hsum
    exact hsum

/-- On a filtered candidate list (at least two candidates, all possible), one
step of the pruned search is one step of the non-strict exhaustive search. -/
theorem search_step_eq (s : GuessState) (ws : List Word) (h2 : 2 ≤ ws.length)
    (hposs : ∀ a ∈ ws, s.is_word_possible a = true) (acc : ℚ × Option Word) (g : Word) :
    search_step s ws acc g = ge_step s ws acc g := by
  have hne : ws ≠ [] := by
    intro h
    rw [h] at h2
    simp at h2
  unfold search_step ge_step
  rw [gqlb_eq s g ws hne (fun a ha => quality_le_one _ _ h2 a ha
    (update_preserves_possible s g a (hposs a ha)))]
  by_cases hb : acc.1 ≤ guess_quality s g ws <;> simp [hb]

/-- Folds of pointwise-equal step functions agree. -/
theorem foldl_congr_mem {α β : Type _} (f g : β → α → β) :
    ∀ (l : List α) (b : β), (∀ b' a, a ∈ l → f b' a = g b' a) → l.foldl f b = l.foldl g b := by
  intro l
  induction l with
  | nil => intro b _; rfl
  | cons x t ih =>
    intro b h
    simp only [List.foldl_cons]
    rw [h b x (by simp)]
    exact ih _ (fun b' a ha => h b' a (by simp [ha]))

/-- On the filtered list, the pruned search fold equals the non-strict
exhaustive search fold, tracked quality included. -/
theorem search_fold_eq_ge (s : GuessState) (ws : List Word)
    (h2 : 2 ≤ (s.filter_word_list ws).length) :
    (s.filter_word_list ws).foldl (search_step s (s.filter_word_list ws))
        ((0 : ℚ), (none : Option Word)) =
      (s.filter_word_list ws).foldl (ge_step s (s.filter_word_list ws))
        ((0 : ℚ), (none : Option Word)) := by
  refine foldl_congr_mem _ _ _ _ ?_
  intro acc a _
  refine search_step_eq s _ h2 ?_ acc a
  intro a' ha'
  exact (List.mem_filter.mp ha').2

/-- The pruned search is exactly the non-strict exhaustive search: for every
state and every word list, `find_best_guess` and the unpruned search that
replaces the running best whenever a fully evaluated candidate's quality is at
least the running best return the same result. -/
theorem fbg_eq_ge (s : GuessState) (ws : List Word) :
    find_best_guess s ws = find_best_guess_ge s ws := by
  unfold find_best_guess find_best_guess_ge
  by_cases he : (s.filter_word_list ws).isEmpty
  · simp [he]
  · by_cases h1 : (s.filter_word_list ws).length = 1
    · simp [he, h1]
    · have hne : s.filter_word_list ws ≠ [] := by
        intro h
        rw [h] at he
        simp at he
      have hlen2 : 2 ≤ (s.filter_word_list ws).length := by
        have h0 : (s.filter_word_list ws).length ≠ 0 := by
          intro h
          exact hne (List.length_eq_zero.mp h)
        omega
      simp only [he, h1, if_false]
      rw [search_fold_eq_ge s ws hlen2]

/-- The tracked best of the non-strict exhaustive fold is the running maximum
of the candidates' qualities. -/
theorem ge_fold_fst (s : GuessState) (ws : List Word) :
    ∀ (l : List Word) (acc : ℚ × Option Word),
      (l.foldl (ge_step s ws) acc).1 =
        (l.map (fun w => guess_quality s w ws)).foldl max acc.1 := by
  intro l
  induction l with
  | nil => intro acc; rfl
  | cons a t ih =>
    intro acc
    simp only [List.foldl_cons, List.map_cons]
    rw [ih]
    congr 1
    unfold ge_step
    by_cases hb : acc.1 ≤ guess_quality s a ws
    · rw [if_pos hb]
      exact (max_eq_right hb).symm
    · rw [if_neg hb]
      exact (max_eq_left (le_of_not_le hb)).symm

/-- The word tracked by the non-strict exhaustive fold always attains the
tracked best. -/
theorem ge_fold_attains (s : GuessState) (ws : List Word) :
    ∀ (l : List Word) (acc : ℚ × Option Word),
      (∀ w, acc.2 = some w → guess_quality s w ws = acc.1) →
      ∀ w, (l.foldl (ge_step s ws) acc).2 = some w →
        guess_quality s w ws = (l.foldl (ge_step s ws) acc).1 := by
  intro l
  induction l with
  | nil => intro acc h w hw; exact h w hw
  | cons a t ih =>
    intro acc h w hw
    simp only [List.foldl_cons] at hw ⊢
    refine ih (ge_step s ws acc a) ?_ w hw
    intro v hv
    unfold ge_step at hv ⊢
    by_cases hb : acc.1 ≤ guess_quality s a ws
    · rw [if_pos hb] at hv ⊢
      simp only [Option.some.injEq] at hv
      rw [← hv]
    · rw [if_neg hb] at hv ⊢
      exact h v hv

/-- The word tracked by the non-strict exhaustive fold comes from the list or
from the initial accumulator. -/
theorem ge_fold_mem (s : GuessState) (ws : List Word) :
    ∀ (l : List Word) (acc : ℚ × Option Word) (w : Word),
      (l.foldl (ge_step s ws) acc).2 = some w → w ∈ l ∨ acc.2 = some w := by
  intro l
  induction l with
  | nil => intro acc w hw; exact Or.inr hw
  | cons a t ih =>
    intro acc w hw
    simp only [List.foldl_cons] at hw
    rcases ih (ge_step s ws acc a) w hw with hmem | hacc
    · exact Or.inl (by simp [hmem])
    · unfold ge_step at hacc
      by_cases hb : acc.1 ≤ guess_quality s a ws
      · rw [if_pos hb] at hacc
        simp only [Option.some.injEq] at hacc
        exact Or.inl (by simp [hacc])
      · rw [if_neg hb] at hacc
        exact Or.inr hacc

/-- With at least two candidates, every candidate's expected quality is
non-negative. -/
theorem guess_quality_nonneg (s : GuessState) (g : Word) (ws : List Word)
    (h2 : 2 ≤ ws.length) : 0 ≤ guess_quality s g ws := by
  unfold guess_quality
  apply div_nonneg
  · apply List.sum_nonneg
    intro x hx
    obtain ⟨a, _, rfl⟩ := List.mem_map.mp hx
    exact quality_nonneg _ ws h2
  · positivity

/-- Once the non-strict exhaustive fold tracks a word, it keeps tracking
one. -/
theorem ge_fold_isSome (s : GuessState) (ws : List Word) :
    ∀ (l : List Word) (acc : ℚ × Option Word),
      (acc.2.isSome = true) → ((l.foldl (ge_step s ws) acc).2.isSome = true) := by
  intro l
  induction l with
  | nil => intro acc h; exact h
  | cons a t ih =>
    intro acc h
    simp only [List.foldl_cons]
    refine ih (ge_step s ws acc a) ?_
    unfold ge_step
    by_cases hb : acc.1 ≤ guess_quality s a ws
    · rw [if_pos hb]
      rfl
    · rw [if_neg hb]
      exact h

/-- Starting from best `0` on a non-empty list of candidates of non-negative
quality, the non-strict exhaustive fold ends tracking a word. -/
theorem ge_fold_some_of_nonempty (s : GuessState) (ws : List Word) (l : List Word)
    (hne : l ≠ []) (h2 : 2 ≤ ws.length) :
    ((l.foldl (ge_step s ws) ((0 : ℚ), (none : Option Word))).2.isSome = true) := by
  cases l with
  | nil => exact absurd rfl hne
  | cons a t =>
    simp only [List.foldl_cons]
    refine ge_fold_isSome s ws t _ ?_
    unfold ge_step
    rw [if_pos (guess_quality_nonneg s a ws h2)]
    rfl

/-- `quality` does not depend on the order of the candidate list. -/
theorem quality_perm (s : GuessState) {ws₁ ws₂ : List Word} (h : ws₁.Perm ws₂) :
    quality s ws₁ = quality s ws₂ := by
  unfold quality
  rw [h.length_eq, (h.filter _).length_eq]

/-- `guess_quality` does not depend on the order of the candidate list. -/
theorem guess_quality_perm (s : GuessState) (g : Word) {ws₁ ws₂ : List Word}
    (h : ws₁.Perm ws₂) : guess_quality s g ws₁ = guess_quality s g ws₂ := by
  unfold guess_quality
  rw [h.length_eq]
  congr 1
  have hq : ∀ a : Word, quality (s.then' g (process_guess g a)) ws₁ =
      quality (s.then' g (process_guess g a)) ws₂ := fun a => quality_perm _ h
  calc (ws₁.map fun a => quality (s.then' g (process_guess g a)) ws₁).sum
      = (ws₁.map fun a => quality (s.then' g (process_guess g a)) ws₂).sum := by
        congr 1
        exact List.map_congr_left (fun a _ => hq a)
    _ = (ws₂.map fun a => quality (s.then' g (process_guess g a)) ws₂).sum :=
        (h.map _).sum_eq

/-- `find_best_guess` fails exactly when the state eliminates every word of
the list. -/
theorem fbg_error_iff (s : GuessState) (ws : List Word) :
    (∃ e, find_best_guess s ws = Except.error e) ↔ s.filter_word_list ws = [] := by
  rw [fbg_eq_ge]
  unfold find_best_guess_ge
  by_cases he : (s.filter_word_list ws).isEmpty
  · simp only [he, if_true]
    simp only [List.isEmpty_iff] at he
    exact ⟨fun _ => he, fun _ => ⟨_, rfl⟩⟩
  · have hne : s.filter_word_list ws ≠ [] := by
      simpa [List.isEmpty_iff] using he
    by_cases h1 : (s.filter_word_list ws).length = 1
    · simp only [he, h1, if_false, if_true]
      constructor
      · rintro ⟨e, he'⟩
        cases he'
      · intro h
        exact absurd h hne
    · have hlen2 : 2 ≤ (s.filter_word_list ws).length := by
        have h0 : (s.filter_word_list ws).length ≠ 0 := fun h => hne (List.length_eq_zero.mp h)
        omega
      simp only [he, h1, if_false]
      have hsome := ge_fold_some_of_nonempty s (s.filter_word_list ws) (s.filter_word_list ws)
        hne hlen2
      obtain ⟨w, hw⟩ := Option.isSome_iff_exists.mp hsome
      rw [hw]
      constructor
      · rintro ⟨e, he'⟩
        cases he'
      · intro h
        exact absurd h hne

/-- The default head of a non-empty list is a member. -/
theorem headI_mem_of_ne_nil {α : Type _} [Inhabited α] {l : List α} (h : l ≠ []) :
    l.headI ∈ l := by
  cases l with
  | nil => exact absurd rfl h
  | cons x t => simp [List.headI]

/-- A word recommended by `find_best_guess` comes from the filtered list. -/
theorem fbg_ok_mem (s : GuessState) (ws : List Word) (w : Word)
    (h : find_best_guess s ws = Except.ok w) : w ∈ s.filter_word_list ws := by
  rw [fbg_eq_ge] at h
  unfold find_best_guess_ge at h
  by_cases he : (s.filter_word_list ws).isEmpty
  · simp only [he, if_true] at h
    cases h
  · have hne : s.filter_word_list ws ≠ [] := by
      simpa [List.isEmpty_iff] using he
    by_cases h1 : (s.filter_word_list ws).length = 1
    · simp only [he, h1, if_false, if_true] at h
      cases h
      exact headI_mem_of_ne_nil hne
    · simp only [he, h1, if_false] at h
      rcases hm : ((s.filter_word_list ws).foldl (ge_step s (s.filter_word_list ws))
          ((0 : ℚ), (none : Option Word))).2 with - | v
      · rw [hm] at h
        cases h
      · rw [hm] at h
        cases h
        rcases ge_fold_mem s (s.filter_word_list ws) (s.filter_word_list ws) _ w hm with
          hmem | habs
        · exact hmem
        · cases habs

/-- With at least two candidates remaining, the recommended word attains the
maximum expected quality over the filtered list. -/
theorem fbg_ok_quality (s : GuessState) (ws : List Word) (w : Word)
    (h2 : 2 ≤ (s.filter_word_list ws).length)
    (h : find_best_guess s ws = Except.ok w) :
    guess_quality s w (s.filter_word_list ws) =
      ((s.filter_word_list ws).map
        (fun v => guess_quality s v (s.filter_word_list ws))).foldl max 0 := by
  rw [fbg_eq_ge] at h
  unfold find_best_guess_ge at h
  have hne : s.filter_word_list ws ≠ [] := by
    intro hnil
    rw [hnil] at h2
    simp at h2
  have he : ¬ (s.filter_word_list ws).isEmpty := by
    simpa [List.isEmpty_iff] using hne
  have h1 : (s.filter_word_list ws).length ≠ 1 := by omega
  simp only [he, h1, if_false] at h
  rcases hm : ((s.filter_word_list ws).foldl (ge_step s (s.filter_word_list ws))
      ((0 : ℚ), (none : Option Word))).2 with - | v
  · rw [hm] at h
    cases h
  · rw [hm] at h
    cases h
    have hat := ge_fold_attains s (s.filter_word_list ws) (s.filter_word_list ws)
      ((0 : ℚ), (none : Option Word)) (fun v hv => by cases hv) w hm
    have hfst := ge_fold_fst s (s.filter_word_list ws) (s.filter_word_list ws)
      ((0 : ℚ), (none : Option Word))
    rw [hat, hfst]

/-- Every line of an all-blank-or-comment source is skipped, so loading
succeeds with the empty word list. -/
theorem load_lines_all_skipped : ∀ (lines : List (List Nat)),
    (∀ line ∈ lines, line.isEmpty = true ∨ line.head? = some 35) →
    load_lines lines = Except.ok [] := by
  intro lines
  induction lines with
  | nil => intro _; rfl
  | cons line rest ih =>
    intro h
    have hrest : ∀ l ∈ rest, l.isEmpty = true ∨ l.head? = some 35 :=
      fun l hl => h l (by simp [hl])
    rcases h line (by simp) with hb | hc
    · show (if line.isEmpty then load_lines rest else _) = _
      rw [if_pos hb]
      exact ih hrest
    · show (if line.isEmpty then load_lines rest
        else if line.head? = some 35 then load_lines rest else _) = _
      by_cases hb : line.isEmpty
      · rw [if_pos hb]
        exact ih hrest
      · rw [if_neg hb, if_pos hc]
        exact ih hrest

/-! ## Concrete fixtures used by the counterexamples and witnesses -/

/-- The word `aaaaa`. -/
def wA : Word := fun _ => 0

/-- The word `bbbbb`. -/
def wB : Word := fun _ => 1

/-- The word `aaaab`. -/
def wAAAB : Word := fun i => if (i : Nat) = 4 then 1 else 0

/-- The word `abcde`. -/
def wABCDE : Word := fun i => ⟨(i : Nat), by omega⟩

/-- The word `bbaaa`. -/
def wBBAAA : Word := fun i => if (i : Nat) < 2 then 1 else 0

/-- The word `baaaa`. -/
def wBAAAA : Word := fun i => if (i : Nat) = 0 then 1 else 0

/-- A three-word candidate list on which the presort changes the chosen
guess. -/
def lC4 : List Word := [wA, wBBAAA, wBAAAA]

/-- A constraint state recording that position 0 is `b` and that the solution
holds at least two `a`s (as would follow from a guess with two non-Black
`a`s). -/
def s0C3 : GuessState :=
  { letter_choices := fun i => if (i : Nat) = 0 then 2 else (1 <<< 26) - 1,
    letter_counts := fun l => if (l : Nat) = 0 then ⟨2, 6⟩ else LetterCount.default }

/-- Feedback: Exact at position 0, Absent elsewhere. -/
def gwrC3 : GuessWordResult := fun i =>
  if (i : Nat) = 0 then GuessLetterResult.Green else GuessLetterResult.Black

/-! ## The claims -/

/-- C1, counterexample: on the two-word list `[aaaaa, bbbbb]` both candidates
have expected quality 1; the pruned search returns `bbbbb` (the last word
whose completed quality reaches the running best), while the spec's unpruned
exhaustive search with a strictly increasing `best_so_far` returns `aaaaa`
(the first word attaining the maximum).  The pruned and unpruned searches thus
differ on a tie. -/
theorem C1_counterexample :
    (find_best_guess GuessState.default [wA, wB]).toOption = some wB ∧
    (find_best_guess_exhaustive GuessState.default [wA, wB]).toOption = some wA ∧
    ¬ (wA = wB) := by with_unfolding_all decide

/-- C1, amended: the branch-and-bound search (`find_best_guess` using
`guess_quality_lower_bound`) returns, for every constraint state and every
candidate word list, the same best word as the unpruned exhaustive search that
evaluates `guess_quality` fully for every candidate and updates the running
best on every quality at least equal to it (ties: the last maximal candidate
wins); the tracked best quality of the two searches is also the same.  With
the spec's strict tie-break the returned word can differ when two candidates
tie at the maximum (see the counterexample), but the attained quality is
unchanged. -/
theorem C1_pruned_search_equivalence (s : GuessState) (ws : List Word) :
    find_best_guess s ws = find_best_guess_ge s ws ∧
      (2 ≤ (s.filter_word_list ws).length →
        (s.filter_word_list ws).foldl (search_step s (s.filter_word_list ws))
            ((0 : ℚ), (none : Option Word)) =
          (s.filter_word_list ws).foldl (ge_step s (s.filter_word_list ws))
            ((0 : ℚ), (none : Option Word))) :=
  ⟨fbg_eq_ge s ws, fun h2 => search_fold_eq_ge s ws h2⟩

theorem C1_pruned_search_equivalence_witness :
    (GuessState.default.filter_word_list [wA, wB]).foldl
        (search_step GuessState.default (GuessState.default.filter_word_list [wA, wB]))
        ((0 : ℚ), (none : Option Word)) =
      (GuessState.default.filter_word_list [wA, wB]).foldl
        (ge_step GuessState.default (GuessState.default.filter_word_list [wA, wB]))
        ((0 : ℚ), (none : Option Word)) :=
  (C1_pruned_search_equivalence GuessState.default [wA, wB]).2 (by decide)

/-- C2: for every constraint state, every guessed word, and every actual word
possible under the state, the actual word is still possible under the state
obtained by updating with the guess and the feedback
`process_guess guessed actual`. -/
theorem C2_propagation_soundness (s : GuessState) (guessed actual : Word)
    (h : s.is_word_possible actual = true) :
    (s.update guessed (process_guess guessed actual)).is_word_possible actual = true :=
  update_preserves_possible s guessed actual h

theorem C2_propagation_soundness_witness :
    GuessState.default.is_word_possible wA = true ∧
      (GuessState.default.update wB (process_guess wB wA)).is_word_possible wA = true :=
  ⟨by decide, C2_propagation_soundness GuessState.default wB wA (by decide)⟩

/-- C3, counterexample: from the state that fixes position 0 to `b` and
records at least two `a`s, updating with guess `abcde`, feedback
`[Exact, Absent, Absent, Absent, Absent]`, yields `a`-count range `[1, 6)`
(the prior lower bound 2 is lost: `1` is admitted afterwards but not before)
and position 0's candidate set `{a}` (the letter `a` is admitted there
afterwards but not before), so neither the count range nor the position set is
contained in its predecessor. -/
theorem C3_counterexample :
    (((s0C3.update wABCDE gwrC3).letter_counts ⟨0, by omega⟩).start = 1 ∧
      ((s0C3.update wABCDE gwrC3).letter_counts ⟨0, by omega⟩).stop = 6 ∧
      (s0C3.letter_counts ⟨0, by omega⟩).start = 2 ∧
      (s0C3.letter_counts ⟨0, by omega⟩).stop = 6) ∧
    (((s0C3.update wABCDE gwrC3).letter_choices ⟨0, by omega⟩).testBit 0 = true ∧
      (s0C3.letter_choices ⟨0, by omega⟩).testBit 0 = false) := by decide

/-- C3, amended: `update` tightens every position's candidate letter set —
each position's set after the update is a subset of its set before — provided
the guessed letter is still allowed at every Exact-feedback position (as holds
whenever the feedback is produced against a possible actual word).  The
per-letter count ranges are **not** always tightened: the per-guess
assignments can lower a previously learned lower bound (and similarly relax an
upper bound), as the counterexample shows. -/
theorem C3_update_tightens_positions (s : GuessState) (guessed : Word)
    (gwr : GuessWordResult)
    (hgreen : ∀ i : Fin 5, gwr i = GuessLetterResult.Green →
      (s.letter_choices i).testBit ((guessed i : Nat)) = true) :
    ∀ (i : Fin 5) (ℓ : Letter),
      ((s.update guessed gwr).letter_choices i).testBit ((ℓ : Nat)) = true →
        (s.letter_choices i).testBit ((ℓ : Nat)) = true :=
  fun i ℓ h => update_choices_subset s guessed gwr hgreen i ℓ h

theorem C3_update_tightens_positions_witness :
    (∀ i : Fin 5, (fun _ : Fin 5 => GuessLetterResult.Green) i = GuessLetterResult.Green →
      (GuessState.default.letter_choices i).testBit ((wA i : Nat)) = true) ∧
    (∀ (i : Fin 5) (ℓ : Letter),
      ((GuessState.default.update wA
          (fun _ => GuessLetterResult.Green)).letter_choices i).testBit ((ℓ : Nat)) = true →
        (GuessState.default.letter_choices i).testBit ((ℓ : Nat)) = true) :=
  ⟨by decide, C3_update_tightens_positions GuessState.default wA
    (fun _ => GuessLetterResult.Green) (by decide)⟩

/-- C4, counterexample: on the list `[aaaaa, bbaaa, baaaa]` all three words
tie at expected quality 1; `find_best_guess` returns the last tied word, so it
returns `baaaa` on the original order but `bbaaa` after
`presort_words_by_heuristic` reorders the list to `[baaaa, aaaaa, bbaaa]`. -/
theorem C4_counterexample :
    (find_best_guess GuessState.default (presort_words_by_heuristic lC4)).toOption =
        some wBBAAA ∧
    (find_best_guess GuessState.default lC4).toOption = some wBAAAA ∧
    ¬ (wBBAAA = wBAAAA) := by with_unfolding_all decide

/-- C4, amended: the presort heuristic permutes the candidate list, so
`find_best_guess` fails on the presorted list exactly when it fails on the
original, and when both succeed the two recommended words have the same
expected quality (both attain the search maximum) — but the recommended word
itself can change when several candidates tie at the maximum (see the
counterexample). -/
theorem C4_presort_preserves_quality (s : GuessState) (l : List Word) :
    ((∃ e, find_best_guess s (presort_words_by_heuristic l) = Except.error e) ↔
      (∃ e, find_best_guess s l = Except.error e)) ∧
    (∀ w v, find_best_guess s l = Except.ok w →
      find_best_guess s (presort_words_by_heuristic l) = Except.ok v →
      guess_quality s w (s.filter_word_list l) =
        guess_quality s v (s.filter_word_list l)) := by
  have hperm : (presort_words_by_heuristic l).Perm l := List.perm_insertionSort _ _
  have hfperm : (s.filter_word_list (presort_words_by_heuristic l)).Perm
      (s.filter_word_list l) := hperm.filter _
  constructor
  · rw [fbg_error_iff, fbg_error_iff]
    constructor
    · intro h
      have hp := hfperm
      rw [h] at hp
      exact hp.symm.eq_nil
    · intro h
      have hp := hfperm
      rw [h] at hp
      exact hp.eq_nil
  · intro w v hw hv
    by_cases hnil : s.filter_word_list l = []
    · obtain ⟨e, he⟩ := (fbg_error_iff s l).mpr hnil
      rw [hw] at he
      cases he
    · by_cases h1 : (s.filter_word_list l).length = 1
      · obtain ⟨a, ha⟩ := List.length_eq_one.mp h1
        have ha' : s.filter_word_list (presort_words_by_heuristic l) = [a] := by
          rw [← List.perm_singleton]
          rw [ha] at hfperm
          exact hfperm
        have hwm := fbg_ok_mem s l w hw
        have hvm := fbg_ok_mem s (presort_words_by_heuristic l) v hv
        rw [ha] at hwm
        rw [ha'] at hvm
        simp only [List.mem_singleton] at hwm hvm
        rw [hwm, hvm]
      · have h0 : (s.filter_word_list l).length ≠ 0 :=
          fun h => hnil (List.length_eq_zero.mp h)
        have h2 : 2 ≤ (s.filter_word_list l).length := by omega
        have h2' : 2 ≤ (s.filter_word_list (presort_words_by_heuristic l)).length := by
          rw [hfperm.length_eq]
          exact h2
        have hq1 := fbg_ok_quality s l w h2 hw
        have hq2 := fbg_ok_quality s (presort_words_by_heuristic l) v h2' hv
        have hmapeq : (s.filter_word_list (presort_words_by_heuristic l)).map
              (fun u => guess_quality s u (s.filter_word_list (presort_words_by_heuristic l))) =
            (s.filter_word_list (presort_words_by_heuristic l)).map
              (fun u => guess_quality s u (s.filter_word_list l)) :=
          List.map_congr_left (fun a _ => guess_quality_perm s a hfperm)
        have hfold : ((s.filter_word_list (presort_words_by_heuristic l)).map
              (fun u => guess_quality s u (s.filter_word_list l))).foldl max 0 =
            ((s.filter_word_list l).map
              (fun u => guess_quality s u (s.filter_word_list l))).foldl max 0 :=
          (hfperm.map _).foldl_eq' (fun x _ y _ z => Max.right_comm z x y) 0
        rw [hq1, ← guess_quality_perm s v hfperm, hq2, hmapeq, hfold]

theorem C4_presort_preserves_quality_witness :
    guess_quality GuessState.default wB (GuessState.default.filter_word_list [wA, wB]) =
      guess_quality GuessState.default wB (GuessState.default.filter_word_list [wA, wB]) :=
  (C4_presort_preserves_quality GuessState.default [wA, wB]).2 wB wB
    (by with_unfolding_all rfl) (by with_unfolding_all rfl)

/-- C5, counterexample: searching `[aaaaa, bbbbb]` from the empty state, the
running best reaches 1 after the first candidate, and the second candidate's
bounded evaluation with bound 1 still completes, returning exactly 1 — so
`best_quality` is overwritten with an equal value, not a strictly larger one,
and the successive values 1, 1 are not strictly increasing. -/
theorem C5_counterexample :
    ([wA].foldl (search_step GuessState.default [wA, wB])
        ((0 : ℚ), (none : Option Word))).1 = 1 ∧
    guess_quality_lower_bound GuessState.default wB [wA, wB] 1 = some 1 := by
  with_unfolding_all decide

/-- C5, amended: during `find_best_guess`, `best_quality` is updated exactly
when a candidate's bounded evaluation completes; a completed evaluation
returns the candidate's exact (fully evaluated) expected quality, and that
quality is at least — but not necessarily strictly above — the current
`best_quality`.  The successive values of `best_quality` are therefore
non-decreasing rather than strictly increasing. -/
theorem C5_best_quality_monotone (s : GuessState) (g : Word) (ws : List Word) (b q : ℚ)
    (hne : ws ≠ []) (h : guess_quality_lower_bound s g ws b = some q) :
    b ≤ q ∧ q = guess_quality s g ws := by
  obtain ⟨h1, h2⟩ := gqlb_some s g ws b q hne h
  exact ⟨h2, h1⟩

theorem C5_best_quality_monotone_witness :
    (1 : ℚ) ≤ 1 ∧ (1 : ℚ) = guess_quality GuessState.default wB [wA, wB] :=
  C5_best_quality_monotone GuessState.default wB [wA, wB] 1 1 (by decide)
    (by with_unfolding_all decide)

/-- C6: for every pair of five-letter words and every letter, the number of
positions where `process_guess` marks that letter Exact (Green) or Present
(Yellow) is at most the minimum of the letter's occurrence counts in the
guessed and in the actual word. -/
theorem C6_feedback_letter_bound (guessed actual : Word) (ℓ : Letter) :
    ((List.finRange 5).filter (fun i => decide (guessed i = ℓ) &&
        decide (process_guess guessed actual i = GuessLetterResult.Green ∨
          process_guess guessed actual i = GuessLetterResult.Yellow))).length ≤
      min (countLetter guessed ℓ) (countLetter actual ℓ) := by
  have heq : ((List.finRange 5).filter (fun i => decide (guessed i = ℓ) &&
      decide (process_guess guessed actual i = GuessLetterResult.Green ∨
        process_guess guessed actual i = GuessLetterResult.Yellow))).length =
      yg_count guessed (process_guess guessed actual) ℓ := by
    unfold yg_count
    congr 1
    refine List.filter_congr ?_
    intro i _
    cases h : process_guess guessed actual i <;> simp [h]
  rw [heq, yg_count_eq_min]

/-- C7, counterexample: after guessing `aaaaa` against all-Absent feedback
(a perfectly consistent state), the stale two-word list `[aaaaa, aaaab]` has
no possible word left, and `quality` evaluates to 2, outside `[0, 1]`. -/
theorem C7_counterexample :
    quality (GuessState.default.update wA (fun _ => GuessLetterResult.Black))
        [wA, wAAAB] = 2 ∧
    ¬ (quality (GuessState.default.update wA (fun _ => GuessLetterResult.Black))
        [wA, wAAAB] ≤ 1) := by with_unfolding_all decide

/-- C7, amended: `quality` always equals `(T − R) / (T − 1)` with `T` the list
size and `R` the number of words still possible; when `T > 1` **and at least
one candidate is still possible** (as holds at every call site, where the
hypothetical actual word remains possible) the value lies in `[0, 1]`.  With
`R = 0` the value exceeds 1 (see the counterexample). -/
theorem C7_quality_formula_bounds (s : GuessState) (ws : List Word) :
    quality s ws = (((ws.length : Nat) : ℚ) -
        (((ws.filter (fun w => s.is_word_possible w)).length : Nat) : ℚ)) /
        (((ws.length : Nat) : ℚ) - 1) ∧
      (1 < ws.length → (∃ a ∈ ws, s.is_word_possible a = true) →
        0 ≤ quality s ws ∧ quality s ws ≤ 1) := by
  constructor
  · rfl
  · intro h1 hex
    obtain ⟨a, ha, hp⟩ := hex
    exact ⟨quality_nonneg s ws (by omega), quality_le_one s ws (by omega) a ha hp⟩

theorem C7_quality_formula_bounds_witness :
    0 ≤ quality GuessState.default [wA, wB] ∧ quality GuessState.default [wA, wB] ≤ 1 :=
  (C7_quality_formula_bounds GuessState.default [wA, wB]).2 (by decide)
    ⟨wA, by decide, by decide⟩

/-- C8: `find_best_guess` returns the "No more words remaining" error exactly
when no word of the list is possible under the state; otherwise it returns
`Ok` with a word of the list that is possible under the state. -/
theorem C8_no_candidates (s : GuessState) (ws : List Word) :
    ((∃ e, find_best_guess s ws = Except.error e) ↔
      ∀ w ∈ ws, ¬ (s.is_word_possible w = true)) ∧
    (∀ w, find_best_guess s ws = Except.ok w → w ∈ ws ∧ s.is_word_possible w = true) := by
  constructor
  · rw [fbg_error_iff]
    unfold GuessState.filter_word_list
    exact List.filter_eq_nil
  · intro w h
    have hm := fbg_ok_mem s ws w h
    unfold GuessState.filter_word_list at hm
    exact ⟨(List.mem_filter.mp hm).1, (List.mem_filter.mp hm).2⟩

theorem C8_no_candidates_witness :
    wA ∈ [wA] ∧ GuessState.default.is_word_possible wA = true :=
  (C8_no_candidates GuessState.default [wA]).2 wA (by rfl)

/-- C9, counterexample: loading a source with no lines, or with only blank and
comment lines, succeeds with the empty word list — it does not fail with
`LoadError`. -/
theorem C9_counterexample :
    (load_words (some [])).toOption = some [] ∧
    (load_words (some [[], [35, 97]])).toOption = some [] := by decide

/-- C9, amended: `LoadError` is produced exactly for an unreadable source; a
source whose lines are all blank or comments (in particular an empty source)
loads successfully as the empty word list, and a source containing the line
`"abcdef"` fails with `InvalidWordError`.  (The empty list then surfaces
later as the `NoCandidatesError` of the first search, not as a load
failure.) -/
theorem C9_load_behaviour (lines : List (List Nat))
    (h : ∀ line ∈ lines, line.isEmpty = true ∨ line.head? = some 35) :
    (∃ e, load_words none = Except.error e) ∧
      load_words (some lines) = Except.ok [] ∧
      (∃ e, load_words (some [[97, 98, 99, 100, 101, 102]]) = Except.error e) := by
  refine ⟨⟨_, rfl⟩, ?_, ⟨_, rfl⟩⟩
  show load_lines lines = Except.ok []
  exact load_lines_all_skipped lines h

theorem C9_load_behaviour_witness :
    (∃ e, load_words none = Except.error e) ∧
      load_words (some [[], [35, 97]]) = Except.ok [] ∧
      (∃ e, load_words (some [[97, 98, 99, 100, 101, 102]]) = Except.error e) :=
  C9_load_behaviour [[], [35, 97]] (by decide)

/-- C10: within `find_best_guess`, `quality` is only ever evaluated on the
filtered candidate list, and only in the branch where that list has at least
two words (the single-remaining-candidate branch returns the word directly),
so the divisor `T − 1` is never zero at any reachable call. -/
theorem C10_quality_divisor_nonzero (s : GuessState) (ws : List Word) :
    ∀ l ∈ quality_eval_lists s ws, 2 ≤ l.length ∧ (((l.length : Nat) : ℚ) - 1 ≠ 0) := by
  intro l hl
  unfold quality_eval_lists at hl
  by_cases he : (s.filter_word_list ws).isEmpty
  · simp [he] at hl
  · by_cases h1 : (s.filter_word_list ws).length = 1
    · simp [he, h1] at hl
    · simp only [he, h1, if_false] at hl
      have hleq : l = s.filter_word_list ws := by simpa using hl
      subst hleq
      have hne : s.filter_word_list ws ≠ [] := by simpa [List.isEmpty_iff] using he
      have h0 : (s.filter_word_list ws).length ≠ 0 :=
        fun h => hne (List.length_eq_zero.mp h)
      refine ⟨by omega, ?_⟩
      intro hc
      have hcast : (((s.filter_word_list ws).length : Nat) : ℚ) = 1 := by linarith
      have hlen1 : (s.filter_word_list ws).length = 1 := by exact_mod_cast hcast
      exact h1 hlen1

theorem C10_quality_divisor_nonzero_witness :
    2 ≤ (GuessState.default.filter_word_list [wA, wB]).length ∧
      ((((GuessState.default.filter_word_list [wA, wB]).length : Nat) : ℚ) - 1 ≠ 0) :=
  C10_quality_divisor_nonzero GuessState.default [wA, wB]
    (GuessState.default.filter_word_list [wA, wB]) (by decide)

end WordleAssistant
